import Mathlib

/-!
Shallow embedding of `lib/evaluate.py` and `lib/visualizer.py` from the
Skip-GANomaly repository.  Labels are booleans (`true` = class 1), scores are
rationals (exact model of the float scores), and fallible Python code
(exceptions raised by library calls) is modelled with `Option`/`Except`.
-/

set_option linter.unusedVariables false
set_option allowUnsafeReducibility true
attribute [semireducible] Rat.inv Rat.mul Rat.add Rat.sub Rat.ofScientific

namespace SkipGanomaly

/-- `scores_new = [1 if ele >= threshold else 0 for ele in scores]`
(`get_values_for_pr_curve`, evaluate.py line 92). -/
def binarize (scores : List ℚ) (threshold : ℚ) : List ℕ :=
  scores.map (fun ele => if threshold ≤ ele then 1 else 0)

/-- `len(set(scores_new)) == 1` (evaluate.py line 94): the list is nonempty and
all entries are equal to the first one. -/
def allEqual : List ℕ → Bool
  | [] => false
  | x :: xs => xs.all (fun y => y == x)

/-- `tp` entry of `confusion_matrix(labels, scores_new).ravel()`:
number of samples with label 1 and prediction 1. -/
def tpCount (labels : List Bool) (preds : List ℕ) : ℕ :=
  (labels.zip preds).countP fun p => p.1 && (p.2 == 1)

/-- `fp` entry of the raveled confusion matrix: label 0, prediction 1. -/
def fpCount (labels : List Bool) (preds : List ℕ) : ℕ :=
  (labels.zip preds).countP fun p => (!p.1) && (p.2 == 1)

/-- `fn` entry of the raveled confusion matrix: label 1, prediction 0. -/
def fnCount (labels : List Bool) (preds : List ℕ) : ℕ :=
  (labels.zip preds).countP fun p => p.1 && (p.2 == 0)

/-- `tn` entry of the raveled confusion matrix: label 0, prediction 0. -/
def tnCount (labels : List Bool) (preds : List ℕ) : ℕ :=
  (labels.zip preds).countP fun p => (!p.1) && (p.2 == 0)

/-- `tn, fp, fn, tp = confusion_matrix(labels, scores_new).ravel()` succeeds
exactly when the union of the classes occurring in `labels` and in the
predictions contains both class 0 and class 1 (otherwise the matrix is 1x1 or
empty and the 4-way unpacking raises `ValueError`). -/
def ravelOk (labels : List Bool) (preds : List ℕ) : Bool :=
  (labels.contains true || preds.contains 1) &&
    (labels.contains false || preds.contains 0)

/-- `precision` from `precision_recall_fscore_support(..., average="binary",
pos_label=1)`; rational division returns 0 on a zero denominator, matching
sklearn's zero-division convention. -/
def precisionOf (tp fp : ℕ) : ℚ := (tp : ℚ) / ((tp : ℚ) + (fp : ℚ))

/-- `recall` from `precision_recall_fscore_support(..., average="binary",
pos_label=1)`; rational division returns 0 on a zero denominator, matching
sklearn's zero-division convention. -/
def recallOf (tp fn : ℕ) : ℚ := (tp : ℚ) / ((tp : ℚ) + (fn : ℚ))

/-- Return value of `get_values_for_pr_curve`: the six parallel arrays and the
final `len(thresholds)` count. -/
structure PrCurveValues where
  tp_counts : List ℕ
  fp_counts : List ℕ
  tn_counts : List ℕ
  fn_counts : List ℕ
  precisions : List ℚ
  recalls : List ℚ
  n_thresholds : ℕ
deriving DecidableEq, Repr

/-- The `for threshold in thresholds` loop of `get_values_for_pr_curve`
(evaluate.py lines 91-104).  Per iteration: binarize, then call
`confusion_matrix(labels, scores_new).ravel()` - which raises (`none`) when
the lengths differ or the class union is a single class - then skip the
threshold when `len(set(scores_new)) == 1`, else append the confusion counts
and the binary precision/recall. -/
def prAux (labels : List Bool) (scores : List ℚ) : List ℚ → Option PrCurveValues
  | [] => some ⟨[], [], [], [], [], [], 0⟩
  | t :: rest =>
    let preds := binarize scores t
    if preds.length = labels.length then
      if ravelOk labels preds then
        if allEqual preds then prAux labels scores rest
        else
          match prAux labels scores rest with
          | none => none
          | some r =>
              some ⟨tpCount labels preds :: r.tp_counts,
                    fpCount labels preds :: r.fp_counts,
                    tnCount labels preds :: r.tn_counts,
                    fnCount labels preds :: r.fn_counts,
                    precisionOf (tpCount labels preds) (fpCount labels preds) :: r.precisions,
                    recallOf (tpCount labels preds) (fnCount labels preds) :: r.recalls,
                    0⟩
      else none
    else none

/-- `get_values_for_pr_curve(labels, scores, thresholds)` (evaluate.py lines
84-108): run the loop, then return the arrays together with
`len(thresholds)` - the originally requested count, not the retained count. -/
def getValuesForPrCurve (labels : List Bool) (scores : List ℚ)
    (thresholds : List ℚ) : Option PrCurveValues :=
  match prAux labels scores thresholds with
  | none => none
  | some r => some { r with n_thresholds := thresholds.length }

lemma countP_partition (l : List (Bool × ℕ)) (h : ∀ p ∈ l, p.2 = 0 ∨ p.2 = 1) :
    (l.countP fun p => p.1 && (p.2 == 1)) + (l.countP fun p => (!p.1) && (p.2 == 1)) +
      (l.countP fun p => (!p.1) && (p.2 == 0)) + (l.countP fun p => p.1 && (p.2 == 0)) =
      l.length := by
  induction l with
  | nil => simp
  | cons a l ih =>
    have ha := h a (by simp)
    have hl : ∀ p ∈ l, p.2 = 0 ∨ p.2 = 1 := fun p hp => h p (by simp [hp])
    have ih' := ih hl
    obtain ⟨b, n⟩ := a
    rcases ha with h0 | h1
    · subst h0
      cases b <;> simp [List.countP_cons] <;> omega
    · subst h1
      cases b <;> simp [List.countP_cons] <;> omega

lemma binarize_mem_01 (scores : List ℚ) (t : ℚ) :
    ∀ x ∈ binarize scores t, x = 0 ∨ x = 1 := by
  intro x hx
  simp only [binarize, List.mem_map] at hx
  obtain ⟨s, _, hs⟩ := hx
  by_cases h : t ≤ s <;> simp [h] at hs <;> omega

lemma binarize_length (scores : List ℚ) (t : ℚ) :
    (binarize scores t).length = scores.length := by
  simp [binarize]

lemma counts_sum (labels : List Bool) (preds : List ℕ)
    (hlen : preds.length = labels.length) (h01 : ∀ x ∈ preds, x = 0 ∨ x = 1) :
    tpCount labels preds + fpCount labels preds + tnCount labels preds +
      fnCount labels preds = labels.length := by
  have hz : ∀ p ∈ labels.zip preds, p.2 = 0 ∨ p.2 = 1 := by
    intro p hp
    exact h01 p.2 (List.of_mem_zip hp).2
  have := countP_partition (labels.zip preds) hz
  have hlz : (labels.zip preds).length = labels.length := by
    simp [List.length_zip, hlen]
  rw [hlz] at this
  unfold tpCount fpCount tnCount fnCount
  omega

/-- Full description of a successful run of the loop: the six arrays have the
length of the filtered (non-degenerate) threshold list, and the four counts at
each retained position sum to the number of samples. -/
lemma prAux_some_spec (labels : List Bool) (scores : List ℚ) :
    ∀ (ths : List ℚ) (r : PrCurveValues), prAux labels scores ths = some r →
      r.tp_counts.length =
        (ths.filter fun t => !(allEqual (binarize scores t))).length ∧
      r.fp_counts.length = r.tp_counts.length ∧
      r.tn_counts.length = r.tp_counts.length ∧
      r.fn_counts.length = r.tp_counts.length ∧
      r.precisions.length = r.tp_counts.length ∧
      r.recalls.length = r.tp_counts.length ∧
      (∀ i, i < r.tp_counts.length →
        r.tp_counts.getD i 0 + r.fp_counts.getD i 0 + r.tn_counts.getD i 0 +
          r.fn_counts.getD i 0 = labels.length) := by
  intro ths
  induction ths with
  | nil =>
    intro r hr
    simp only [prAux, Option.some.injEq] at hr
    subst hr
    simp
  | cons t rest ih =>
    intro r hr
    simp only [prAux] at hr
    by_cases hlen : (binarize scores t).length = labels.length
    · rw [if_pos hlen] at hr
      by_cases hok : ravelOk labels (binarize scores t) = true
      · rw [if_pos hok] at hr
        by_cases hall : allEqual (binarize scores t) = true
        · rw [if_pos hall] at hr
          have := ih r hr
          simpa [List.filter_cons, hall] using this
        · rw [if_neg hall] at hr
          cases hrec : prAux labels scores rest with
          | none => rw [hrec] at hr; exact absurd hr (by simp)
          | some r' =>
            rw [hrec] at hr
            simp only [Option.some.injEq] at hr
            subst hr
            obtain ⟨h1, h2, h3, h4, h5, h6, h7⟩ := ih r' hrec
            refine ⟨?_, ?_, ?_, ?_, ?_, ?_, ?_⟩
            · simp [List.filter_cons, hall, h1]
            · simp [h2]
            · simp [h3]
            · simp [h4]
            · simp [h5]
            · simp [h6]
            · intro i hi
              cases i with
              | zero =>
                simp only [List.getD_cons_zero]
                exact counts_sum labels (binarize scores t) hlen
                  (binarize_mem_01 scores t)
              | succ j =>
                simp only [List.getD_cons_succ]
                have hj : j < r'.tp_counts.length := by
                  simp at hi; omega
                exact h7 j hj
      · rw [if_neg hok] at hr
        exact absurd hr (by simp)
    · rw [if_neg hlen] at hr
      exact absurd hr (by simp)

lemma getValues_eq_some (labels : List Bool) (scores : List ℚ) (ths : List ℚ)
    (out : PrCurveValues) (h : getValuesForPrCurve labels scores ths = some out) :
    ∃ r, prAux labels scores ths = some r ∧
      out = { r with n_thresholds := ths.length } := by
  unfold getValuesForPrCurve at h
  cases hr : prAux labels scores ths with
  | none => rw [hr] at h; exact absurd h (by simp)
  | some r =>
    rw [hr] at h
    simp only [Option.some.injEq] at h
    exact ⟨r, rfl, h.symm⟩

/-- C1: on every successful call, `get_values_for_pr_curve` returns six
parallel arrays of one common length, that length is at most the number of
requested thresholds and equals the number of thresholds whose binarized
predictions are not all one class (degenerate thresholds contribute no entry),
and the returned count is `len(thresholds)`, not the retained count. -/
theorem C1_pr_curve_parallel_outputs (labels : List Bool) (scores : List ℚ)
    (thresholds : List ℚ) (out : PrCurveValues)
    (h : getValuesForPrCurve labels scores thresholds = some out) :
    out.fp_counts.length = out.tp_counts.length ∧
    out.tn_counts.length = out.tp_counts.length ∧
    out.fn_counts.length = out.tp_counts.length ∧
    out.precisions.length = out.tp_counts.length ∧
    out.recalls.length = out.tp_counts.length ∧
    out.tp_counts.length ≤ thresholds.length ∧
    out.tp_counts.length =
      (thresholds.filter fun t => !(allEqual (binarize scores t))).length ∧
    out.n_thresholds = thresholds.length := by
  obtain ⟨r, hr, hout⟩ := getValues_eq_some labels scores thresholds out h
  obtain ⟨h1, h2, h3, h4, h5, h6, _⟩ := prAux_some_spec labels scores thresholds r hr
  subst hout
  refine ⟨h2, h3, h4, h5, h6, ?_, h1, rfl⟩
  calc r.tp_counts.length
      = (thresholds.filter fun t => !(allEqual (binarize scores t))).length := h1
    _ ≤ thresholds.length := List.length_filter_le _ _

/-- Concrete output value used by the C1 witness. -/
def c1out : PrCurveValues := ⟨[1], [0], [1], [0], [1], [1], 1⟩

theorem C1_witness :
    getValuesForPrCurve [false, true] [0, 1] [1/2] = some c1out ∧
    (c1out.fp_counts.length = c1out.tp_counts.length ∧
      c1out.tn_counts.length = c1out.tp_counts.length ∧
      c1out.fn_counts.length = c1out.tp_counts.length ∧
      c1out.precisions.length = c1out.tp_counts.length ∧
      c1out.recalls.length = c1out.tp_counts.length ∧
      c1out.tp_counts.length ≤ ([1/2] : List ℚ).length ∧
      c1out.tp_counts.length =
        (([1/2] : List ℚ).filter fun t =>
          !(allEqual (binarize [0, 1] t))).length ∧
      c1out.n_thresholds = ([1/2] : List ℚ).length) :=
  ⟨by decide, C1_pr_curve_parallel_outputs [false, true] [0, 1] [1/2]
    c1out (by decide)⟩

/-- C4 counterexample: with the all-negative labels `[0,0]` and a threshold
above every score, the binarized predictions collapse to the single class 0,
yet `get_values_for_pr_curve` raises (`confusion_matrix(...).ravel()` unpacks
a 1x1 matrix before the skip check runs) instead of skipping. -/
theorem C4_counterexample :
    allEqual (binarize [(0:ℚ), 0] 1) = true ∧
    getValuesForPrCurve [false, false] [(0:ℚ), 0] [1] = none := by
  decide

lemma prAux_isSome (labels : List Bool) (scores : List ℚ)
    (ht : true ∈ labels) (hf : false ∈ labels)
    (hlen : scores.length = labels.length) :
    ∀ ths : List ℚ, ∃ r, prAux labels scores ths = some r := by
  intro ths
  induction ths with
  | nil => exact ⟨_, rfl⟩
  | cons t rest ih =>
    have hlen' : (binarize scores t).length = labels.length := by
      rw [binarize_length]; exact hlen
    have hok : ravelOk labels (binarize scores t) = true := by
      unfold ravelOk
      have h1 : labels.contains true = true := List.elem_eq_true_of_mem ht
      have h2 : labels.contains false = true := List.elem_eq_true_of_mem hf
      rw [h1, h2]
      simp
    obtain ⟨r, hrec⟩ := ih
    by_cases hall : allEqual (binarize scores t) = true
    · refine ⟨r, ?_⟩
      simp only [prAux, if_pos hlen', if_pos hok, if_pos hall]
      exact hrec
    · refine ⟨⟨tpCount labels (binarize scores t) :: r.tp_counts,
        fpCount labels (binarize scores t) :: r.fp_counts,
        tnCount labels (binarize scores t) :: r.tn_counts,
        fnCount labels (binarize scores t) :: r.fn_counts,
        precisionOf (tpCount labels (binarize scores t))
          (fpCount labels (binarize scores t)) :: r.precisions,
        recallOf (tpCount labels (binarize scores t))
          (fnCount labels (binarize scores t)) :: r.recalls, 0⟩, ?_⟩
      simp only [prAux, if_pos hlen', if_pos hok, if_neg hall, hrec]

/-- C4, amended: when the labels contain both classes (so the 4-way
confusion-matrix unpack always succeeds) and the scores match the labels in
length, every threshold whose binarized predictions are all one class is
skipped - excluded from the outputs - and the call does not fail; when labels
and binarized predictions collapse to the same single class, the call raises
instead of skipping. -/
theorem C4_amended_skip_no_raise (labels : List Bool) (scores : List ℚ)
    (thresholds : List ℚ) (ht : true ∈ labels) (hf : false ∈ labels)
    (hlen : scores.length = labels.length) :
    ∃ out, getValuesForPrCurve labels scores thresholds = some out ∧
      out.tp_counts.length =
        (thresholds.filter fun t => !(allEqual (binarize scores t))).length := by
  obtain ⟨r, hr⟩ := prAux_isSome labels scores ht hf hlen thresholds
  refine ⟨{ r with n_thresholds := thresholds.length }, ?_, ?_⟩
  · unfold getValuesForPrCurve
    rw [hr]
  · exact (prAux_some_spec labels scores thresholds r hr).1

theorem C4_witness :
    (true ∈ [true, false] ∧ false ∈ [true, false] ∧
      ([(0:ℚ), 0] : List ℚ).length = ([true, false] : List Bool).length) ∧
    (∃ out, getValuesForPrCurve [true, false] [(0:ℚ), 0] [5] = some out ∧
      out.tp_counts.length =
        (([5] : List ℚ).filter fun t =>
          !(allEqual (binarize [(0:ℚ), 0] t))).length) :=
  ⟨⟨by decide, by decide, by decide⟩,
    C4_amended_skip_no_raise [true, false] [(0:ℚ), 0] [5]
      (by decide) (by decide) (by decide)⟩

/-- C5: on every successful call, at every retained threshold position the
four confusion counts sum to the number of samples (the length of the label
sequence). -/
theorem C5_confusion_counts_sum (labels : List Bool) (scores : List ℚ)
    (thresholds : List ℚ) (out : PrCurveValues)
    (h : getValuesForPrCurve labels scores thresholds = some out) :
    ∀ i, i < out.tp_counts.length →
      out.tp_counts.getD i 0 + out.fp_counts.getD i 0 + out.tn_counts.getD i 0 +
        out.fn_counts.getD i 0 = labels.length := by
  obtain ⟨r, hr, hout⟩ := getValues_eq_some labels scores thresholds out h
  subst hout
  exact (prAux_some_spec labels scores thresholds r hr).2.2.2.2.2.2

theorem C5_witness :
    getValuesForPrCurve [false, true] [0, 2] [1] =
      some ⟨[1], [0], [1], [0], [1], [1], 1⟩ ∧ 0 < 1 ∧
    ((⟨[1], [0], [1], [0], [1], [1], 1⟩ : PrCurveValues).tp_counts.getD 0 0 +
      (⟨[1], [0], [1], [0], [1], [1], 1⟩ : PrCurveValues).fp_counts.getD 0 0 +
      (⟨[1], [0], [1], [0], [1], [1], 1⟩ : PrCurveValues).tn_counts.getD 0 0 +
      (⟨[1], [0], [1], [0], [1], [1], 1⟩ : PrCurveValues).fn_counts.getD 0 0 =
        ([false, true] : List Bool).length) :=
  ⟨by decide, by decide,
    C5_confusion_counts_sum [false, true] [0, 2] [1]
      ⟨[1], [0], [1], [0], [1], [1], 1⟩ (by decide) 0 (by decide)⟩

/-! ### `roc` (evaluate.py lines 39-78)

`roc_curve`/`auc` are the sklearn implementations (pre-1.2 era, matching the
repository): stable descending sort of the scores, cumulative true/false
positives read off at each distinct-score boundary, `drop_intermediate`
second-difference pruning, a prepended `(0, 0)` point whose threshold is
`thresholds[0] + 1`, and division by the final counts.  All arithmetic is
exact rational arithmetic. -/

/-- Descending-score order used by `np.argsort(y_score)[::-1]`. -/
def scoreDesc (a b : Bool × ℚ) : Prop := b.2 ≤ a.2

instance : DecidableRel scoreDesc := fun a b =>
  inferInstanceAs (Decidable (b.2 ≤ a.2))

instance : IsTotal (Bool × ℚ) scoreDesc := ⟨fun a b => le_total b.2 a.2⟩

instance : IsTrans (Bool × ℚ) scoreDesc :=
  ⟨fun _ _ _ hab hbc => le_trans hbc hab⟩

/-- The (label, score) pairs sorted by descending score. -/
def sortedPairs (labels : List Bool) (scores : List ℚ) : List (Bool × ℚ) :=
  List.insertionSort scoreDesc (labels.zip scores)

/-- `tps = np.cumsum(y_true)[k]`: positives among the first `k+1` sorted
samples. -/
def tpsAt (l : List (Bool × ℚ)) (k : ℕ) : ℕ :=
  (l.take (k + 1)).countP (fun p => p.1)

/-- `fps = 1 + k - tps`: negatives among the first `k+1` sorted samples. -/
def fpsAt (l : List (Bool × ℚ)) (k : ℕ) : ℕ := (k + 1) - tpsAt l k

/-- `threshold_idxs = np.r_[np.where(np.diff(y_score))[0], y_true.size - 1]`:
an index is a boundary when it is the last one or the next score differs. -/
def isBoundary (l : List (Bool × ℚ)) (k : ℕ) : Bool :=
  (k + 1 == l.length) || !((l.getD k default).2 == (l.getD (k + 1) default).2)

/-- The ascending list of boundary indices. -/
def boundaryIdxs (l : List (Bool × ℚ)) : List ℕ :=
  (List.range l.length).filter (isBoundary l)

/-- `_binary_clf_curve`: `(fps, tps, threshold)` at each boundary index. -/
def clfPoints (labels : List Bool) (scores : List ℚ) : List (ℕ × ℕ × ℚ) :=
  let l := sortedPairs labels scores
  (boundaryIdxs l).map fun k => (fpsAt l k, tpsAt l k, (l.getD k default).2)

/-- `np.logical_or(np.diff(fps, 2), np.diff(tps, 2))` at a middle point `b`
with original neighbours `a` and `c`: keep when either second difference is
nonzero (stated additively to stay in `ℕ`). -/
def keepMid (a b c : ℕ × ℕ × ℚ) : Bool :=
  !(a.1 + c.1 == 2 * b.1) || !(a.2.1 + c.2.1 == 2 * b.2.1)

/-- Sliding window over the curve points: each middle point is kept according
to `keepMid` with its original neighbours; the last point is always kept. -/
def dropWin : (ℕ × ℕ × ℚ) → List (ℕ × ℕ × ℚ) → List (ℕ × ℕ × ℚ)
  | _, [] => []
  | _, [p] => [p]
  | prev, cur :: next :: rest =>
      if keepMid prev cur next then cur :: dropWin cur (next :: rest)
      else dropWin cur (next :: rest)

/-- `drop_intermediate`: applied only when more than two points exist; the
first and last points are always kept. -/
def dropIntermediate (pts : List (ℕ × ℕ × ℚ)) : List (ℕ × ℕ × ℚ) :=
  if pts.length ≤ 2 then pts
  else
    match pts with
    | [] => []
    | p :: rest => p :: dropWin p rest

/-- `roc_curve(labels, scores)` returning `(fpr, tpr, thresholds)`: prepend
the `(0, 0)` point and the synthetic threshold `thresholds[0] + 1`, then
normalize by the last cumulative counts (rational division by zero yields 0,
where numpy would emit `nan` for a single-class input). -/
def rocCurve (labels : List Bool) (scores : List ℚ) :
    List ℚ × List ℚ × List ℚ :=
  let pts := dropIntermediate (clfPoints labels scores)
  let fps : List ℕ := 0 :: pts.map (fun p => p.1)
  let tps : List ℕ := 0 :: pts.map (fun p => p.2.1)
  let thresholds : List ℚ :=
    match pts.map (fun p => p.2.2) with
    | [] => []
    | t :: ts => (t + 1) :: t :: ts
  let nneg : ℚ := (fps.getLastD 0 : ℕ)
  let npos : ℚ := (tps.getLastD 0 : ℕ)
  (fps.map (fun f : ℕ => (f : ℚ) / nneg),
    tps.map (fun t : ℕ => (t : ℚ) / npos), thresholds)

/-- `np.trapz(y, x)` over the zipped point list (the direction factor of
sklearn's `auc` is `+1` because `fpr` is nondecreasing). -/
def trapzPts : List (ℚ × ℚ) → ℚ
  | p :: q :: rest => (q.1 - p.1) * (p.2 + q.2) / 2 + trapzPts (q :: rest)
  | _ => 0

/-- `roc_auc = auc(fpr, tpr)`. -/
def aucScore (x y : List ℚ) : ℚ := trapzPts (x.zip y)

/-- The `tf` column of the balanced-threshold data frame:
`tpr - (1 - fpr)` at each curve point. -/
def tfList (fpr tpr : List ℚ) : List ℚ :=
  (fpr.zip tpr).map fun p => p.2 - (1 - p.1)

/-- `(roc.tf - 0).abs().argsort()[:1]`: the first index attaining the minimal
absolute value (numpy's argsort is stable on the small arrays involved). -/
def argminAbs : List ℚ → ℕ
  | [] => 0
  | [_] => 0
  | x :: y :: rest =>
      let r := argminAbs (y :: rest)
      if |(y :: rest).getD r 0| < |x| then r + 1 else 0

/-- The triple `(roc_auc, threshold, t)` returned by `roc`. -/
def rocResultOf (labels : List Bool) (scores : List ℚ) : ℚ × ℚ × List ℚ :=
  let c := rocCurve labels scores
  (aucScore c.1 c.2.1, c.2.2.getD (argminAbs (tfList c.1 c.2.1)) 0, c.2.2)

/-- The curve crossing computed by
`brentq(lambda x: 1. - x - interp1d(fpr, tpr)(x), 0., 1.)`, modelled in exact
arithmetic: walk the interpolation knots (`np.interp` uses the last of
duplicated knots) and return the point where `1 - x - tpr(x)` stops being
positive - the sign change that the root bracketing converges to. -/
def eerGo : ℚ → ℚ → List (ℚ × ℚ) → ℚ
  | x, _, [] => x
  | x, y, (a, b) :: rest =>
      if a = x then
        if 1 - x - b ≤ 0 then x else eerGo x b rest
      else
        if 1 - a - b ≤ 0 then
          (1 - y + (b - y) / (a - x) * x) / (1 + (b - y) / (a - x))
        else eerGo a b rest

/-- Start of the crossing scan at the first interpolation knot. -/
def eerStart : List (ℚ × ℚ) → ℚ
  | [] => 0
  | (x, y) :: rest => if 1 - x - y ≤ 0 then x else eerGo x y rest

/-- Equal Error Rate of the curve: the zero crossing of
`1 - x - interp1d(fpr, tpr)(x)` on `[0, 1]`. -/
def eerOf (fpr tpr : List ℚ) : ℚ := eerStart (fpr.zip tpr)

/-- AUC of the ROC evaluation of `(labels, scores)`. -/
def rocAUC (labels : List Bool) (scores : List ℚ) : ℚ :=
  (rocResultOf labels scores).1

/-- EER of the ROC evaluation of `(labels, scores)`. -/
def rocEER (labels : List Bool) (scores : List ℚ) : ℚ :=
  let c := rocCurve labels scores
  eerOf c.1 c.2.1

/-- `average_precision_score`: sum of `(R_k - R_(k-1)) * P_k` over the
precision-recall curve points, accumulated over the descending-threshold
boundary points. -/
def apGo (npos : ℚ) : ℕ → List (ℕ × ℕ × ℚ) → ℚ
  | _, [] => 0
  | prevTps, p :: rest =>
      ((p.2.1 : ℚ) - (prevTps : ℚ)) / npos *
        ((p.2.1 : ℚ) / ((p.2.1 : ℚ) + (p.1 : ℚ))) + apGo npos p.2.1 rest

/-- `auprc(labels, scores) = average_precision_score(labels, scores)`. -/
def averagePrecisionScore (labels : List Bool) (scores : List ℚ) : ℚ :=
  let pts := clfPoints labels scores
  apGo (((pts.getLastD (0, 0, 0)).2.1 : ℕ) : ℚ) 0 pts

/-! ### `evaluate` (evaluate.py lines 25-36) -/

/-- `f1_score(labels, scores)` with `pos_label=1`: `2*tp / (2*tp + fp + fn)`,
where a sample is predicted positive exactly when its (binarized) score
equals 1; rational division by a zero denominator yields 0, matching
sklearn's zero-division behaviour. -/
def f1ScoreFn (labels : List Bool) (preds : List ℚ) : ℚ :=
  let tp := (labels.zip preds).countP fun p => p.1 && (p.2 == 1)
  let fp := (labels.zip preds).countP fun p => (!p.1) && (p.2 == 1)
  let fn := (labels.zip preds).countP fun p => p.1 && !(p.2 == 1)
  2 * (tp : ℚ) / (2 * (tp : ℚ) + (fp : ℚ) + (fn : ℚ))

/-- The two in-place masked assignments
`scores[scores >= 0.20] = 1; scores[scores < 0.20] = 0`, applied in order. -/
def f1Binarized (scores : List ℚ) : List ℚ :=
  (scores.map fun x => if 1/5 ≤ x then 1 else x).map
    fun x => if x < 1/5 then 0 else x

/-- Value returned by one `evaluate` call. -/
inductive EvalResult where
  | rocR : ℚ → ℚ → List ℚ → EvalResult
  | auprcR : ℚ → EvalResult
  | f1R : ℚ → EvalResult
deriving DecidableEq, Repr

/-- Observable side effects of one `evaluate` call: the caller's score buffer
after the call (scores are passed by reference and may be mutated in place)
and the files written before returning. -/
structure EvalEffects where
  finalScores : List ℚ
  writtenFiles : List String
deriving DecidableEq, Repr

/-- `evaluate(labels, scores, metric, output_directory, epoch)`.  The `roc`
branch forwards to `roc` without passing `saveto`, whose default `True`
makes it save the plot to `output_directory + "/ROC" + str(epoch) + ".png"`;
the `f1_score` branch mutates the scores in place at threshold 0.20 and
returns their F1 score; any other metric raises
`NotImplementedError("Check the evaluation metric.")` before any I/O or
mutation. -/
def evaluate (labels : List Bool) (scores : List ℚ) (metric : String)
    (output_directory : String) (epoch : ℕ) :
    Except String EvalResult × EvalEffects :=
  if metric = "roc" then
    let r := rocResultOf labels scores
    (Except.ok (EvalResult.rocR r.1 r.2.1 r.2.2),
      ⟨scores, [output_directory ++ "/ROC" ++ toString epoch ++ ".png"]⟩)
  else if metric = "auprc" then
    (Except.ok (EvalResult.auprcR (averagePrecisionScore labels scores)),
      ⟨scores, []⟩)
  else if metric = "f1_score" then
    (Except.ok (EvalResult.f1R (f1ScoreFn labels (f1Binarized scores))),
      ⟨f1Binarized scores, []⟩)
  else
    (Except.error "Check the evaluation metric.", ⟨scores, []⟩)

lemma f1Binarized_eq (scores : List ℚ) :
    f1Binarized scores = scores.map fun x => if 1/5 ≤ x then (1 : ℚ) else 0 := by
  unfold f1Binarized
  rw [List.map_map]
  refine List.map_congr_left ?_
  intro a _
  by_cases h : (1 : ℚ)/5 ≤ a
  · simp only [Function.comp, if_pos h]
    rw [if_neg]
    norm_num
  · simp only [Function.comp, if_neg h]
    rw [if_pos]
    exact lt_of_not_le h

lemma f1_ratio_nonneg (a b c : ℕ) :
    0 ≤ 2 * (a : ℚ) / (2 * (a : ℚ) + (b : ℚ) + (c : ℚ)) := by
  positivity

lemma f1_ratio_le_one (a b c : ℕ) :
    2 * (a : ℚ) / (2 * (a : ℚ) + (b : ℚ) + (c : ℚ)) ≤ 1 := by
  rcases Nat.eq_zero_or_pos (2 * a + b + c) with h | h
  · have h1 : (2 * (a : ℚ) + (b : ℚ) + (c : ℚ)) = 0 := by
      have : ((2 * a + b + c : ℕ) : ℚ) = 0 := by
        rw [h]; norm_num
      push_cast at this
      linarith

    rw [h1, div_zero]
    norm_num
  · have h1 : (0 : ℚ) < 2 * (a : ℚ) + (b : ℚ) + (c : ℚ) := by
      have : (0 : ℚ) < ((2 * a + b + c : ℕ) : ℚ) := by exact_mod_cast h
      push_cast at this
      linarith
    rw [div_le_one h1]
    have h2 : (0 : ℚ) ≤ (b : ℚ) := by positivity
    have h3 : (0 : ℚ) ≤ (c : ℚ) := by positivity
    linarith

lemma f1ScoreFn_nonneg (labels : List Bool) (preds : List ℚ) :
    0 ≤ f1ScoreFn labels preds :=
  f1_ratio_nonneg _ _ _

lemma f1ScoreFn_le_one (labels : List Bool) (preds : List ℚ) :
    f1ScoreFn labels preds ≤ 1 :=
  f1_ratio_le_one _ _ _

lemma evaluate_f1_eq (labels : List Bool) (scores : List ℚ) (d : String)
    (ep : ℕ) :
    evaluate labels scores "f1_score" d ep =
      (Except.ok (EvalResult.f1R (f1ScoreFn labels (f1Binarized scores))),
        ⟨f1Binarized scores, []⟩) := by
  unfold evaluate
  rw [if_neg (by decide : ¬("f1_score" : String) = "roc"),
    if_neg (by decide : ¬("f1_score" : String) = "auprc"), if_pos rfl]

/-- C2: `evaluate(..., metric="f1_score")` binarizes the scores at exactly
0.20 (score >= 0.20 becomes 1, else 0), returns the F1 score of the binarized
scores against the labels - a value in [0, 1] - and the caller's score buffer
after the call is exactly the binarized sequence (the in-place mutation). -/
theorem C2_f1_branch (labels : List Bool) (scores : List ℚ) (d : String)
    (ep : ℕ) :
    (evaluate labels scores "f1_score" d ep).1 =
      Except.ok (EvalResult.f1R (f1ScoreFn labels (f1Binarized scores))) ∧
    (evaluate labels scores "f1_score" d ep).2.finalScores =
      f1Binarized scores ∧
    f1Binarized scores = (scores.map fun x => if 1/5 ≤ x then (1 : ℚ) else 0) ∧
    0 ≤ f1ScoreFn labels (f1Binarized scores) ∧
    f1ScoreFn labels (f1Binarized scores) ≤ 1 := by
  rw [evaluate_f1_eq]
  exact ⟨rfl, rfl, f1Binarized_eq scores, f1ScoreFn_nonneg labels _,
    f1ScoreFn_le_one labels _⟩

/-- C3: for any metric outside {"roc", "auprc", "f1_score"}, `evaluate`
fails fast with the unsupported-metric error, writes no file and leaves the
caller's scores untouched. -/
theorem C3_unsupported_metric (labels : List Bool) (scores : List ℚ)
    (metric : String) (d : String) (ep : ℕ)
    (h1 : metric ≠ "roc") (h2 : metric ≠ "auprc") (h3 : metric ≠ "f1_score") :
    evaluate labels scores metric d ep =
      (Except.error "Check the evaluation metric.", ⟨scores, []⟩) := by
  unfold evaluate
  rw [if_neg h1, if_neg h2, if_neg h3]

theorem C3_witness :
    (("unknown" : String) ≠ "roc" ∧ ("unknown" : String) ≠ "auprc" ∧
      ("unknown" : String) ≠ "f1_score") ∧
    evaluate [true] [0] "unknown" "." 0 =
      (Except.error "Check the evaluation metric.", ⟨[0], []⟩) :=
  ⟨⟨by decide, by decide, by decide⟩,
    C3_unsupported_metric [true] [0] "unknown" "." 0
      (by decide) (by decide) (by decide)⟩

/-- C10: every `evaluate` call with metric "roc" (on inputs where the curve
is defined, i.e. both classes occur) renders and saves the ROC plot to
`<output_directory>/ROC<epoch>.png` and returns the roc triple: the `saveto`
flag of `roc` defaults to `True` and `evaluate` gives callers no way to
override it. -/
theorem C10_roc_always_saves (labels : List Bool) (scores : List ℚ)
    (d : String) (ep : ℕ) (ht : true ∈ labels) (hf : false ∈ labels) :
    (evaluate labels scores "roc" d ep).2.writtenFiles =
      [d ++ "/ROC" ++ toString ep ++ ".png"] ∧
    (evaluate labels scores "roc" d ep).1 =
      Except.ok (EvalResult.rocR (rocResultOf labels scores).1
        (rocResultOf labels scores).2.1 (rocResultOf labels scores).2.2) := by
  unfold evaluate
  rw [if_pos rfl]
  exact ⟨rfl, rfl⟩

theorem C10_witness :
    (true ∈ [false, true] ∧ false ∈ [false, true]) ∧
    ((evaluate [false, true] [0, 1] "roc" "./out" 7).2.writtenFiles =
      ["./out" ++ "/ROC" ++ toString 7 ++ ".png"] ∧
    (evaluate [false, true] [0, 1] "roc" "./out" 7).1 =
      Except.ok (EvalResult.rocR (rocResultOf [false, true] [0, 1]).1
        (rocResultOf [false, true] [0, 1]).2.1
        (rocResultOf [false, true] [0, 1]).2.2)) :=
  ⟨⟨by decide, by decide⟩,
    C10_roc_always_saves [false, true] [0, 1] "./out" 7 (by decide) (by decide)⟩

/-! ### Visualizer (`lib/visualizer.py`) -/

/-- `inp.min()` over the flattened batch. -/
def listMin : List ℚ → ℚ
  | [] => 0
  | x :: xs => xs.foldl min x

/-- `inp.max()` over the flattened batch. -/
def listMax : List ℚ → ℚ
  | [] => 0
  | x :: xs => xs.foldl max x

/-- `Visualizer.normalize` (visualizer.py line 73):
`(inp - inp.min()) / (inp.max() - inp.min() + 1e-5)`. -/
def normalizeBatch (inp : List ℚ) : List ℚ :=
  inp.map fun v => (v - listMin inp) / (listMax inp - listMin inp + 1/100000)

/-- One `writer.add_images` call forwarded to the dashboard. -/
structure ImageEvent where
  tag : String
  image : List ℚ
  step : ℕ
deriving DecidableEq, Repr

/-- `Visualizer.display_current_images` (visualizer.py lines 149-163):
normalizes `reals` and `fakes` and forwards them; the `fixed` batch is
accepted but its normalization is commented out and it is never forwarded. -/
def display_current_images (reals fakes fixed : List ℚ)
    (train_or_test : String) (global_step : ℕ) : List ImageEvent :=
  [⟨"Reals from " ++ train_or_test ++ " step: ", normalizeBatch reals,
      global_step⟩,
   ⟨"Fakes from " ++ train_or_test ++ " step: ", normalizeBatch fakes,
      global_step⟩]

/-- One `vutils.save_image` call: target path and its `normalize` flag. -/
structure SavedImage where
  path : String
  normalizeFlag : Bool
deriving DecidableEq, Repr

/-- `"%03d" % n`: decimal digits left-padded with zeros to width 3. -/
def pad3 (n : ℕ) : String :=
  if n < 10 then "00" ++ toString n
  else if n < 100 then "0" ++ toString n
  else toString n

/-- `Visualizer.save_current_images` (visualizer.py lines 170-181): writes
`reals.png`, `fakes.png` and `fixed_fakes_%03d.png % (epoch+1)` into the
run's image directory, each with `normalize=True`. -/
def save_current_images (epoch : ℕ) (reals fakes fixed : List ℚ)
    (img_dir : String) : List SavedImage :=
  [⟨img_dir ++ "/reals.png", true⟩,
   ⟨img_dir ++ "/fakes.png", true⟩,
   ⟨img_dir ++ "/fixed_fakes_" ++ pad3 (epoch + 1) ++ ".png", true⟩]

lemma foldl_min_le_init (xs : List ℚ) : ∀ a : ℚ, xs.foldl min a ≤ a := by
  induction xs with
  | nil => intro a; exact le_refl a
  | cons x xs ih =>
    intro a
    calc (x :: xs).foldl min a = xs.foldl min (min a x) := rfl
      _ ≤ min a x := ih (min a x)
      _ ≤ a := min_le_left a x

lemma foldl_min_le_mem (xs : List ℚ) :
    ∀ (a v : ℚ), v ∈ xs → xs.foldl min a ≤ v := by
  induction xs with
  | nil => intro a v hv; exact absurd hv (by simp)
  | cons x xs ih =>
    intro a v hv
    rcases List.mem_cons.1 hv with h | h
    · subst h
      calc (v :: xs).foldl min a = xs.foldl min (min a v) := rfl
        _ ≤ min a v := foldl_min_le_init xs (min a v)
        _ ≤ v := min_le_right a v
    · exact ih (min a x) v h

lemma init_le_foldl_max (xs : List ℚ) : ∀ a : ℚ, a ≤ xs.foldl max a := by
  induction xs with
  | nil => intro a; exact le_refl a
  | cons x xs ih =>
    intro a
    calc a ≤ max a x := le_max_left a x
      _ ≤ xs.foldl max (max a x) := ih (max a x)
      _ = (x :: xs).foldl max a := rfl

lemma mem_le_foldl_max (xs : List ℚ) :
    ∀ (a v : ℚ), v ∈ xs → v ≤ xs.foldl max a := by
  induction xs with
  | nil => intro a v hv; exact absurd hv (by simp)
  | cons x xs ih =>
    intro a v hv
    rcases List.mem_cons.1 hv with h | h
    · subst h
      calc v ≤ max a v := le_max_right a v
        _ ≤ xs.foldl max (max a v) := init_le_foldl_max xs (max a v)
        _ = (v :: xs).foldl max a := rfl
    · exact ih (max a x) v h

lemma listMin_le (b : List ℚ) (v : ℚ) (hv : v ∈ b) : listMin b ≤ v := by
  cases b with
  | nil => exact absurd hv (by simp)
  | cons x xs =>
    rcases List.mem_cons.1 hv with h | h
    · subst h; exact foldl_min_le_init xs v
    · exact foldl_min_le_mem xs x v h

lemma le_listMax (b : List ℚ) (v : ℚ) (hv : v ∈ b) : v ≤ listMax b := by
  cases b with
  | nil => exact absurd hv (by simp)
  | cons x xs =>
    rcases List.mem_cons.1 hv with h | h
    · subst h; exact init_le_foldl_max xs v
    · exact mem_le_foldl_max xs x v h

lemma foldl_max_mem (xs : List ℚ) : ∀ a : ℚ, xs.foldl max a = a ∨
    xs.foldl max a ∈ xs := by
  induction xs with
  | nil => intro a; exact Or.inl rfl
  | cons x xs ih =>
    intro a
    rcases ih (max a x) with h | h
    · rcases le_total a x with hax | hax
      · right
        rw [List.foldl_cons, h, max_eq_right hax]
        exact List.mem_cons_self x xs
      · left
        rw [List.foldl_cons, h, max_eq_left hax]
    · right
      exact List.mem_cons_of_mem x h

lemma listMax_mem (b : List ℚ) (hb : b ≠ []) : listMax b ∈ b := by
  cases b with
  | nil => exact absurd rfl hb
  | cons x xs =>
    rcases foldl_max_mem xs x with h | h
    · rw [listMax, h]; exact List.mem_cons_self x xs
    · exact List.mem_cons_of_mem x h

lemma listMin_le_listMax (b : List ℚ) (hb : b ≠ []) :
    listMin b ≤ listMax b := by
  cases b with
  | nil => exact absurd rfl hb
  | cons x xs =>
    calc listMin (x :: xs) ≤ x := listMin_le (x :: xs) x (by simp)
      _ ≤ listMax (x :: xs) := le_listMax (x :: xs) x (by simp)

/-- Behaviour of one normalized batch: all entries lie in [0, 1); a constant
batch maps to all zeros (the epsilon guard); a non-constant batch attains its
maximal entry `(max - min) / (max - min + 1e-5)`, which is just below 1. -/
def normSpec (b : List ℚ) : Prop :=
  (∀ v ∈ normalizeBatch b, 0 ≤ v ∧ v < 1) ∧
  (listMax b = listMin b → ∀ v ∈ normalizeBatch b, v = 0) ∧
  (b ≠ [] → listMax b ≠ listMin b →
    ((listMax b - listMin b) / (listMax b - listMin b + 1/100000)) ∈
        normalizeBatch b ∧
      (∀ v ∈ normalizeBatch b,
        v ≤ (listMax b - listMin b) / (listMax b - listMin b + 1/100000)) ∧
      (listMax b - listMin b) / (listMax b - listMin b + 1/100000) < 1)

lemma normSpec_holds (b : List ℚ) (hb : b ≠ []) : normSpec b := by
  have hrange : 0 ≤ listMax b - listMin b := by
    have := listMin_le_listMax b hb
    linarith
  have hden : (0 : ℚ) < listMax b - listMin b + 1/100000 := by linarith
  refine ⟨?_, ?_, ?_⟩
  · intro v hv
    simp only [normalizeBatch, List.mem_map] at hv
    obtain ⟨w, hw, hwv⟩ := hv
    subst hwv
    constructor
    · apply div_nonneg _ (le_of_lt hden)
      have := listMin_le b w hw
      linarith
    · rw [div_lt_one hden]
      have := le_listMax b w hw
      linarith
  · intro hconst v hv
    simp only [normalizeBatch, List.mem_map] at hv
    obtain ⟨w, hw, hwv⟩ := hv
    subst hwv
    have h1 := listMin_le b w hw
    have h2 := le_listMax b w hw
    rw [hconst] at h2
    have h3 : w - listMin b = 0 := by linarith
    rw [h3, zero_div]
  · intro _ hne
    refine ⟨?_, ?_, ?_⟩
    · simp only [normalizeBatch, List.mem_map]
      exact ⟨listMax b, listMax_mem b hb, rfl⟩
    · intro v hv
      simp only [normalizeBatch, List.mem_map] at hv
      obtain ⟨w, hw, hwv⟩ := hv
      subst hwv
      rw [div_le_div_iff_of_pos_right hden]
      have := le_listMax b w hw
      linarith
    · rw [div_lt_one hden]
      norm_num

/-- C8 counterexample: the `fixed` batch is neither normalized nor forwarded:
the call emits exactly two dashboard events and none of them carries the
normalization of the `fixed` batch. -/
theorem C8_counterexample :
    (display_current_images [0] [0] [(0 : ℚ), 1] "train" 0).length = 2 ∧
    ¬ ∃ e ∈ display_current_images [0] [0] [(0 : ℚ), 1] "train" 0,
        e.image = normalizeBatch [(0 : ℚ), 1] := by
  decide

/-- C8, amended: `display_current_images` normalizes the `reals` and `fakes`
batches into [0, 1) and forwards exactly those two to the dashboard; the
`fixed` batch is accepted but neither normalized nor forwarded.  For each
forwarded batch: a constant batch normalizes to all zeros, any other batch
attains the maximal value `(max - min)/(max - min + 1e-5)`, just below 1. -/
theorem C8_amended_two_batches (reals fakes fixed : List ℚ) (s : String)
    (st : ℕ) (hr : reals ≠ []) (hf : fakes ≠ []) :
    display_current_images reals fakes fixed s st =
      [⟨"Reals from " ++ s ++ " step: ", normalizeBatch reals, st⟩,
       ⟨"Fakes from " ++ s ++ " step: ", normalizeBatch fakes, st⟩] ∧
    normSpec reals ∧ normSpec fakes :=
  ⟨rfl, normSpec_holds reals hr, normSpec_holds fakes hf⟩

theorem C8_witness :
    (([0, 2] : List ℚ) ≠ [] ∧ ([5] : List ℚ) ≠ []) ∧
    (display_current_images [0, 2] [5] [] "test" 3 =
      [⟨"Reals from " ++ "test" ++ " step: ", normalizeBatch [0, 2], 3⟩,
       ⟨"Fakes from " ++ "test" ++ " step: ", normalizeBatch [5], 3⟩] ∧
    normSpec [0, 2] ∧ normSpec [5]) :=
  ⟨⟨by decide, by decide⟩,
    C8_amended_two_batches [0, 2] [5] [] "test" 3 (by decide) (by decide)⟩

/-- C9 counterexample: at epoch 0 the third file is
`fixed_fakes_001.png` - the zero-padded successor `epoch+1` - not
`fixed_fakes_0.png` as the claim's naming scheme demands, and no written file
carries the claimed name. -/
theorem C9_counterexample :
    (save_current_images 0 [] [] [] "out").getD 2 ⟨"", false⟩ =
      ⟨"out/fixed_fakes_001.png", true⟩ ∧
    ("out/fixed_fakes_001.png" : String) ≠ "out/fixed_fakes_0.png" ∧
    ¬ ∃ e ∈ save_current_images 0 [] [] [] "out",
        e.path = "out/fixed_fakes_0.png" := by
  decide

/-- C9, amended: each epoch, `save_current_images` writes exactly three PNG
files into the run's image directory - `reals.png`, `fakes.png` and
`fixed_fakes_<epoch+1 zero-padded to width 3>.png` - each saved with
pixel-range normalization (`normalize=True`). -/
theorem C9_amended_three_files (epoch : ℕ) (reals fakes fixed : List ℚ)
    (dir : String) :
    save_current_images epoch reals fakes fixed dir =
      [⟨dir ++ "/reals.png", true⟩, ⟨dir ++ "/fakes.png", true⟩,
       ⟨dir ++ "/fixed_fakes_" ++ pad3 (epoch + 1) ++ ".png", true⟩] ∧
    (save_current_images epoch reals fakes fixed dir).length = 3 ∧
    ∀ e ∈ save_current_images epoch reals fakes fixed dir,
      e.normalizeFlag = true := by
  refine ⟨rfl, rfl, ?_⟩
  intro e he
  simp only [save_current_images, List.mem_cons, List.not_mem_nil,
    or_false] at he
  rcases he with h | h | h <;> subst h <;> rfl

/-! ### C6: the balanced threshold -/

/-- `fpr` component of `roc_curve`. -/
def rocFpr (labels : List Bool) (scores : List ℚ) : List ℚ :=
  (rocCurve labels scores).1

/-- `tpr` component of `roc_curve`. -/
def rocTpr (labels : List Bool) (scores : List ℚ) : List ℚ :=
  (rocCurve labels scores).2.1

/-- `t` component of `roc_curve` (returned unchanged by `roc`). -/
def rocThresholds (labels : List Bool) (scores : List ℚ) : List ℚ :=
  (rocCurve labels scores).2.2

/-- Row position selected by `roc.iloc[(roc.tf - 0).abs().argsort()[:1]]`. -/
def balancedIdx (labels : List Bool) (scores : List ℚ) : ℕ :=
  argminAbs (tfList (rocFpr labels scores) (rocTpr labels scores))

/-- The balanced threshold returned by `roc` as second component. -/
def balancedThreshold (labels : List Bool) (scores : List ℚ) : ℚ :=
  (rocResultOf labels scores).2.1

lemma rocResultOf_eq (labels : List Bool) (scores : List ℚ) :
    rocResultOf labels scores =
      (aucScore (rocFpr labels scores) (rocTpr labels scores),
        (rocThresholds labels scores).getD (balancedIdx labels scores) 0,
        rocThresholds labels scores) := rfl

lemma argminAbs_lt_length : (l : List ℚ) → l ≠ [] → argminAbs l < l.length
  | [], h => absurd rfl h
  | [x], _ => by simp [argminAbs]
  | x :: y :: rest, _ => by
    rw [argminAbs]
    by_cases h : |(y :: rest).getD (argminAbs (y :: rest)) 0| < |x|
    · simp only [if_pos h]
      have := argminAbs_lt_length (y :: rest) (by simp)
      simpa using Nat.succ_lt_succ this
    · simp only [if_neg h, List.length_cons]
      exact Nat.succ_pos _

lemma argminAbs_min : (l : List ℚ) → ∀ j, j < l.length →
    |l.getD (argminAbs l) 0| ≤ |l.getD j 0|
  | [], j, hj => by simp at hj
  | [x], j, hj => by
    simp only [List.length_singleton] at hj
    have hj0 : j = 0 := Nat.lt_one_iff.1 hj
    subst hj0
    simp [argminAbs]
  | x :: y :: rest, j, hj => by
    rw [argminAbs]
    by_cases h : |(y :: rest).getD (argminAbs (y :: rest)) 0| < |x|
    · simp only [if_pos h]
      rw [List.getD_cons_succ]
      cases j with
      | zero =>
        rw [List.getD_cons_zero]
        exact le_of_lt h
      | succ i =>
        rw [List.getD_cons_succ]
        exact argminAbs_min (y :: rest) i (by simpa using hj)
    · simp only [if_neg h]
      rw [List.getD_cons_zero]
      cases j with
      | zero => rw [List.getD_cons_zero]
      | succ i =>
        rw [List.getD_cons_succ]
        calc |x| ≤ |(y :: rest).getD (argminAbs (y :: rest)) 0| := le_of_not_lt h
          _ ≤ |(y :: rest).getD i 0| :=
            argminAbs_min (y :: rest) i (by simpa using hj)

lemma sortedPairs_ne_nil (labels : List Bool) (scores : List ℚ)
    (h : labels.zip scores ≠ []) : sortedPairs labels scores ≠ [] := by
  unfold sortedPairs
  intro hc
  apply h
  have := List.length_insertionSort scoreDesc (labels.zip scores)
  rw [hc] at this
  exact List.eq_nil_of_length_eq_zero this.symm

lemma boundaryIdxs_ne_nil (l : List (Bool × ℚ)) (h : l ≠ []) :
    boundaryIdxs l ≠ [] := by
  have hlen : 0 < l.length := List.length_pos.2 h
  have hmem : l.length - 1 ∈ boundaryIdxs l := by
    unfold boundaryIdxs
    rw [List.mem_filter]
    constructor
    · rw [List.mem_range]
      omega
    · unfold isBoundary
      have : l.length - 1 + 1 = l.length := by omega
      rw [this]
      simp
  intro hc
  rw [hc] at hmem
  exact absurd hmem (by simp)

lemma clfPoints_ne_nil (labels : List Bool) (scores : List ℚ)
    (h : labels.zip scores ≠ []) : clfPoints labels scores ≠ [] := by
  unfold clfPoints
  intro hc
  have := List.map_eq_nil.1 hc
  exact boundaryIdxs_ne_nil _ (sortedPairs_ne_nil labels scores h) this

lemma dropWin_ne_nil (prev : ℕ × ℕ × ℚ) (l : List (ℕ × ℕ × ℚ)) (h : l ≠ []) :
    dropWin prev l ≠ [] := by
  induction l generalizing prev with
  | nil => exact absurd rfl h
  | cons cur rest ih =>
    cases rest with
    | nil => simp [dropWin]
    | cons next rest' =>
      rw [dropWin]
      by_cases hk : keepMid prev cur next = true
      · simp [if_pos hk]
      · rw [if_neg hk]
        exact ih cur (by simp)

lemma dropIntermediate_ne_nil (pts : List (ℕ × ℕ × ℚ)) (h : pts ≠ []) :
    dropIntermediate pts ≠ [] := by
  unfold dropIntermediate
  by_cases hlen : pts.length ≤ 2
  · rw [if_pos hlen]; exact h
  · rw [if_neg hlen]
    cases pts with
    | nil => exact absurd rfl h
    | cons p rest => simp

lemma rocCurve_lengths (labels : List Bool) (scores : List ℚ)
    (h : labels.zip scores ≠ []) :
    (rocCurve labels scores).1.length = (rocCurve labels scores).2.2.length ∧
    (rocCurve labels scores).2.1.length =
      (rocCurve labels scores).2.2.length ∧
    (rocCurve labels scores).2.2 ≠ [] := by
  have hpts : dropIntermediate (clfPoints labels scores) ≠ [] :=
    dropIntermediate_ne_nil _ (clfPoints_ne_nil labels scores h)
  cases hp : dropIntermediate (clfPoints labels scores) with
  | nil => exact absurd hp hpts
  | cons p rest =>
    unfold rocCurve
    rw [hp]
    refine ⟨by simp, by simp, by simp⟩

/-- C6 counterexample: on labels `[0,1]` with the tied scores `[1/2, 1/2]`,
`roc` returns the synthetic threshold `3/2 = thresholds[0] + 1`, which is not
among the original score thresholds of the ROC curve (nor among the scores):
the claim that the balanced threshold is always an original score threshold
fails. -/
theorem C6_counterexample :
    (rocResultOf [false, true] [(1 : ℚ)/2, 1/2]).2.1 = 3/2 ∧
    ¬ (rocResultOf [false, true] [(1 : ℚ)/2, 1/2]).2.1 ∈
        (clfPoints [false, true] [(1 : ℚ)/2, 1/2]).map (fun p => p.2.2) ∧
    ¬ (rocResultOf [false, true] [(1 : ℚ)/2, 1/2]).2.1 ∈ [(1 : ℚ)/2, 1/2] := by
  decide

/-- C6, amended: `evaluate(..., "roc")` returns the triple
`(AUC, balanced-threshold, full threshold sequence)`, where the balanced
threshold is an entry of the returned threshold sequence (whose first entry
is the synthetic `thresholds[0] + 1`, so on degenerate inputs the selected
entry need not be an original score threshold) and it minimizes
`|TPR - (1 - FPR)|` over all curve points. -/
theorem C6_amended_balanced_threshold (labels : List Bool) (scores : List ℚ)
    (d : String) (ep : ℕ) (h : labels.zip scores ≠ []) :
    (evaluate labels scores "roc" d ep).1 =
      Except.ok (EvalResult.rocR (aucScore (rocFpr labels scores)
        (rocTpr labels scores)) (balancedThreshold labels scores)
        (rocThresholds labels scores)) ∧
    balancedThreshold labels scores ∈ rocThresholds labels scores ∧
    (∀ j, j < (tfList (rocFpr labels scores) (rocTpr labels scores)).length →
      |(tfList (rocFpr labels scores) (rocTpr labels scores)).getD
          (balancedIdx labels scores) 0| ≤
        |(tfList (rocFpr labels scores) (rocTpr labels scores)).getD j 0|) := by
  obtain ⟨hl1, hl2, hne⟩ := rocCurve_lengths labels scores h
  have htf : (tfList (rocFpr labels scores) (rocTpr labels scores)).length =
      (rocThresholds labels scores).length := by
    unfold tfList
    rw [List.length_map, List.length_zip]
    unfold rocFpr rocTpr rocThresholds
    omega
  have htfne : tfList (rocFpr labels scores) (rocTpr labels scores) ≠ [] := by
    intro hc
    apply hne
    have := congrArg List.length hc
    rw [htf] at this
    exact List.eq_nil_of_length_eq_zero this
  have hidx : balancedIdx labels scores <
      (rocThresholds labels scores).length := by
    rw [← htf]
    exact argminAbs_lt_length _ htfne
  refine ⟨rfl, ?_, ?_⟩
  · have hbt : balancedThreshold labels scores =
        (rocThresholds labels scores).getD (balancedIdx labels scores) 0 := rfl
    rw [hbt, List.getD_eq_getElem _ _ hidx]
    exact List.getElem_mem hidx
  · intro j hj
    exact argminAbs_min _ j hj

theorem C6_witness :
    (([false, true] : List Bool).zip [(0 : ℚ), 1] ≠ []) ∧
    ((evaluate [false, true] [(0 : ℚ), 1] "roc" "." 0).1 =
      Except.ok (EvalResult.rocR (aucScore (rocFpr [false, true] [(0 : ℚ), 1])
        (rocTpr [false, true] [(0 : ℚ), 1]))
        (balancedThreshold [false, true] [(0 : ℚ), 1])
        (rocThresholds [false, true] [(0 : ℚ), 1])) ∧
    balancedThreshold [false, true] [(0 : ℚ), 1] ∈
      rocThresholds [false, true] [(0 : ℚ), 1] ∧
    (∀ j, j < (tfList (rocFpr [false, true] [(0 : ℚ), 1])
        (rocTpr [false, true] [(0 : ℚ), 1])).length →
      |(tfList (rocFpr [false, true] [(0 : ℚ), 1])
          (rocTpr [false, true] [(0 : ℚ), 1])).getD
          (balancedIdx [false, true] [(0 : ℚ), 1]) 0| ≤
        |(tfList (rocFpr [false, true] [(0 : ℚ), 1])
          (rocTpr [false, true] [(0 : ℚ), 1])).getD j 0|)) :=
  ⟨by decide,
    C6_amended_balanced_threshold [false, true] [(0 : ℚ), 1] "." 0 (by decide)⟩

/-! ### C7: perfect separators

Structural lemmas about the cumulative counts of a descending-sorted
label/score list in which no negative sample precedes a positive one. -/

/-- Total number of positive samples. -/
def posCount (l : List (Bool × ℚ)) : ℕ := l.countP (fun p => p.1)

/-- The `(fps, tps, threshold)` triple at a boundary index. -/
def pointFn (l : List (Bool × ℚ)) (k : ℕ) : ℕ × ℕ × ℚ :=
  (fpsAt l k, tpsAt l k, (l.getD k default).2)

lemma clfPoints_eq (labels : List Bool) (scores : List ℚ) :
    clfPoints labels scores =
      (boundaryIdxs (sortedPairs labels scores)).map
        (pointFn (sortedPairs labels scores)) := rfl

/-- In a perfectly separated sorted list, a `false` label is never followed by
a `true` label. -/
def NoPosAfterNeg (l : List (Bool × ℚ)) : Prop :=
  l.Pairwise (fun p q => p.1 = false → q.1 = false)

lemma pairwise_getElem {α : Type} {R : α → α → Prop} {l : List α}
    (h : l.Pairwise R) (i j : ℕ) (hi : i < l.length) (hj : j < l.length)
    (hij : i < j) : R l[i] l[j] := by
  have := List.pairwise_iff_get.1 h ⟨i, hi⟩ ⟨j, hj⟩ hij
  simpa using this

lemma tpsAt_of_true (l : List (Bool × ℚ)) (hl : NoPosAfterNeg l) (k : ℕ)
    (hk : k < l.length) (htr : l[k].1 = true) :
    tpsAt l k = k + 1 := by
  have hall : ∀ p ∈ l.take (k + 1), p.1 = true := by
    intro p hp
    obtain ⟨m, hm, hpm⟩ := List.mem_iff_getElem.1 hp
    have hmlen : m < l.length := by
      rw [List.length_take] at hm
      omega
    have hmk : m ≤ k := by
      rw [List.length_take] at hm
      omega
    rw [List.getElem_take] at hpm
    rcases Nat.lt_or_ge m k with hmlt | hmge
    · by_contra hfa
      have hfa' : l[m].1 = false := by
        cases hb : l[m].1
        · rfl
        · exact absurd (hpm ▸ hb) hfa
      have := pairwise_getElem hl m k hmlen hk hmlt hfa'
      rw [htr] at this
      exact absurd this (by simp)
    · have hmk' : m = k := by omega
      subst hmk'
      rw [← hpm]
      exact htr
  unfold tpsAt
  rw [List.countP_eq_length.2 (fun p hp => by simp [hall p hp])]
  rw [List.length_take]
  omega

lemma tpsAt_of_false (l : List (Bool × ℚ)) (hl : NoPosAfterNeg l) (k : ℕ)
    (hk : k < l.length) (hfa : l[k].1 = false) :
    tpsAt l k = posCount l := by
  have hsplit : posCount l =
      (l.take (k + 1)).countP (fun p => p.1) +
        (l.drop (k + 1)).countP (fun p => p.1) := by
    unfold posCount
    rw [← List.countP_append, List.take_append_drop]
  have hdrop : (l.drop (k + 1)).countP (fun p => p.1) = 0 := by
    rw [List.countP_eq_zero]
    intro p hp
    obtain ⟨m, hm, hpm⟩ := List.mem_iff_getElem.1 hp
    have hmlen : k + 1 + m < l.length := by
      rw [List.length_drop] at hm
      omega
    rw [List.getElem_drop] at hpm
    have hlt : k < k + 1 + m := by omega
    have hres := pairwise_getElem hl k (k + 1 + m) hk hmlen hlt hfa
    rw [hpm] at hres
    simp [hres]
  unfold tpsAt
  omega

lemma tpsAt_le_posCount (l : List (Bool × ℚ)) (k : ℕ) :
    tpsAt l k ≤ posCount l :=
  List.Sublist.countP_le _ (List.take_sublist (k + 1) l)

lemma tpsAt_le (l : List (Bool × ℚ)) (k : ℕ) : tpsAt l k ≤ k + 1 := by
  unfold tpsAt
  calc (l.take (k + 1)).countP (fun p => p.1) ≤ (l.take (k + 1)).length :=
        List.countP_le_length _
    _ ≤ k + 1 := by rw [List.length_take]; omega

lemma get_true_iff (l : List (Bool × ℚ)) (hl : NoPosAfterNeg l) (k : ℕ)
    (hk : k < l.length) :
    l[k].1 = true ↔ k < posCount l := by
  constructor
  · intro htr
    have h1 := tpsAt_of_true l hl k hk htr
    have h2 := tpsAt_le_posCount l k
    omega
  · intro hkp
    cases hb : l[k].1
    · exfalso
      have h1 := tpsAt_of_false l hl k hk hb
      have h2 : tpsAt l k ≤ k := by
        unfold tpsAt
        rw [List.take_succ]
        rw [List.countP_append]
        have h3 : (l[k]?).toList.countP (fun p => p.1) = 0 := by
          rw [List.getElem?_eq_getElem hk]
          simp only [Option.toList_some]
          rw [List.countP_eq_zero]
          intro p hp
          simp only [List.mem_singleton] at hp
          subst hp
          simp [hb]
        have h4 : (l.take k).countP (fun p => p.1) ≤ k := by
          calc (l.take k).countP (fun p => p.1) ≤ (l.take k).length :=
                List.countP_le_length _
            _ ≤ k := by rw [List.length_take]; omega
        omega
      omega
    · rfl

lemma tpsAt_mono (l : List (Bool × ℚ)) (k k' : ℕ) (h : k ≤ k') :
    tpsAt l k ≤ tpsAt l k' := by
  unfold tpsAt
  have : l.take (k + 1) = (l.take (k' + 1)).take (k + 1) := by
    rw [List.take_take]
    congr 1
    omega
  rw [this]
  exact List.Sublist.countP_le _ (List.take_sublist _ _)

lemma tpsAt_growth (l : List (Bool × ℚ)) (k k' : ℕ) (h : k ≤ k') :
    tpsAt l k' ≤ tpsAt l k + (k' - k) := by
  unfold tpsAt
  have hsum : k' + 1 = (k + 1) + (k' - k) := by omega
  rw [hsum, List.take_add, List.countP_append]
  have : (((l.drop (k + 1)).take (k' - k)).countP fun p => p.1) ≤ k' - k := by
    calc ((l.drop (k + 1)).take (k' - k)).countP (fun p => p.1) ≤
          ((l.drop (k + 1)).take (k' - k)).length := List.countP_le_length _
      _ ≤ k' - k := by rw [List.length_take]; omega
  omega

lemma fpsAt_mono (l : List (Bool × ℚ)) (k k' : ℕ) (h : k ≤ k') :
    fpsAt l k ≤ fpsAt l k' := by
  unfold fpsAt
  have h1 := tpsAt_growth l k k' h
  have h2 := tpsAt_le l k
  omega

lemma mem_boundaryIdxs_iff (l : List (Bool × ℚ)) (k : ℕ) :
    k ∈ boundaryIdxs l ↔ k < l.length ∧ isBoundary l k = true := by
  unfold boundaryIdxs
  rw [List.mem_filter, List.mem_range]

lemma boundaryIdxs_pairwise (l : List (Bool × ℚ)) :
    (boundaryIdxs l).Pairwise (· < ·) :=
  (List.pairwise_lt_range l.length).filter _

lemma last_mem_boundaryIdxs (l : List (Bool × ℚ)) (h : l ≠ []) :
    l.length - 1 ∈ boundaryIdxs l := by
  have hlen : 0 < l.length := List.length_pos.2 h
  rw [mem_boundaryIdxs_iff]
  refine ⟨by omega, ?_⟩
  unfold isBoundary
  have : l.length - 1 + 1 = l.length := by omega
  rw [this]
  simp

lemma mem_boundaryIdxs_of_ne (l : List (Bool × ℚ)) (k : ℕ)
    (hk1 : k + 1 < l.length) (hne : l[k].2 ≠ l[k + 1].2) :
    k ∈ boundaryIdxs l := by
  rw [mem_boundaryIdxs_iff]
  refine ⟨by omega, ?_⟩
  unfold isBoundary
  rw [List.getD_eq_getElem _ _ (by omega : k < l.length),
    List.getD_eq_getElem _ _ hk1]
  have : (l[k].2 == l[k + 1].2) = false := beq_eq_false_iff_ne.2 hne
  rw [this]
  simp

lemma sorted_le_getLast (L : List ℕ) (hs : L.Pairwise (· < ·)) (h : L ≠ [])
    (b : ℕ) (hb : b ∈ L) : b ≤ L.getLast h := by
  obtain ⟨i, hi, hbi⟩ := List.mem_iff_getElem.1 hb
  rw [List.getLast_eq_getElem]
  rcases Nat.lt_or_ge i (L.length - 1) with hlt | hge
  · have := pairwise_getElem hs i (L.length - 1) hi (by omega) hlt
    omega
  · have : i = L.length - 1 := by omega
    subst this
    omega

lemma sorted_head_le (L : List ℕ) (hs : L.Pairwise (· < ·)) (h : L ≠ [])
    (b : ℕ) (hb : b ∈ L) : L.head h ≤ b := by
  obtain ⟨i, hi, hbi⟩ := List.mem_iff_getElem.1 hb
  rw [List.head_eq_getElem]
  rcases Nat.eq_zero_or_pos i with h0 | h0
  · subst h0; omega
  · have := pairwise_getElem hs 0 i (by omega) hi h0
    omega

lemma boundaryIdxs_getLast (l : List (Bool × ℚ)) (h : l ≠ []) :
    (boundaryIdxs l).getLast (boundaryIdxs_ne_nil l h) = l.length - 1 := by
  have h1 := sorted_le_getLast (boundaryIdxs l) (boundaryIdxs_pairwise l)
    (boundaryIdxs_ne_nil l h) (l.length - 1) (last_mem_boundaryIdxs l h)
  have h2 : (boundaryIdxs l).getLast (boundaryIdxs_ne_nil l h) ∈
      boundaryIdxs l := List.getLast_mem _
  rw [mem_boundaryIdxs_iff] at h2
  omega

/-- Default point used with `List.getD` on curve-point lists. -/
def pt0 : ℕ × ℕ × ℚ := (0, 0, 0)

lemma dropWin_sublist : ∀ (prev : ℕ × ℕ × ℚ) (l : List (ℕ × ℕ × ℚ)),
    List.Sublist (dropWin prev l) l
  | _, [] => List.Sublist.refl []
  | _, [p] => List.Sublist.refl [p]
  | prev, cur :: next :: rest => by
    rw [dropWin]
    by_cases hk : keepMid prev cur next = true
    · rw [if_pos hk]
      exact (dropWin_sublist cur (next :: rest)).cons₂ cur
    · rw [if_neg hk]
      exact (dropWin_sublist cur (next :: rest)).cons cur

lemma dropWin_getLast? : ∀ (prev : ℕ × ℕ × ℚ) (l : List (ℕ × ℕ × ℚ)),
    l ≠ [] → (dropWin prev l).getLast? = l.getLast?
  | _, [], h => absurd rfl h
  | _, [p], _ => rfl
  | prev, cur :: next :: rest, _ => by
    rw [dropWin]
    have hrec := dropWin_getLast? cur (next :: rest) (by simp)
    have hne := dropWin_ne_nil cur (next :: rest) (by simp)
    by_cases hk : keepMid prev cur next = true
    · rw [if_pos hk]
      cases hdw : dropWin cur (next :: rest) with
      | nil => exact absurd hdw hne
      | cons r tail =>
        rw [List.getLast?_cons_cons]
        rw [← hdw, hrec, List.getLast?_cons_cons]
    · rw [if_neg hk, hrec, List.getLast?_cons_cons]

lemma dropWin_getD_mem : ∀ (l : List (ℕ × ℕ × ℚ)) (prev : ℕ × ℕ × ℚ) (i : ℕ),
    i + 1 < l.length →
    keepMid ((prev :: l).getD i pt0) (l.getD i pt0) (l.getD (i + 1) pt0) =
      true →
    l.getD i pt0 ∈ dropWin prev l
  | [], _, i, hi, _ => by simp at hi
  | [p], _, i, hi, _ => by simp at hi
  | cur :: next :: rest, prev, 0, hi, hk => by
    simp only [List.getD_cons_zero, List.getD_cons_succ] at hk ⊢
    rw [dropWin, if_pos hk]
    exact List.mem_cons_self _ _
  | cur :: next :: rest, prev, j + 1, hi, hk => by
    simp only [List.getD_cons_succ] at hk ⊢
    have hi' : j + 1 < (next :: rest).length := by
      simp only [List.length_cons] at hi ⊢
      omega
    have hmem := dropWin_getD_mem (next :: rest) cur j hi' hk
    rw [dropWin]
    by_cases hkk : keepMid prev cur next = true
    · rw [if_pos hkk]
      exact List.mem_cons_of_mem _ hmem
    · rw [if_neg hkk]
      exact hmem

lemma dropIntermediate_sublist (pts : List (ℕ × ℕ × ℚ)) :
    List.Sublist (dropIntermediate pts) pts := by
  unfold dropIntermediate
  by_cases h : pts.length ≤ 2
  · rw [if_pos h]
  · rw [if_neg h]
    cases pts with
    | nil => exact List.Sublist.refl []
    | cons p rest => exact (dropWin_sublist p rest).cons₂ p

lemma dropIntermediate_head : ∀ (p : ℕ × ℕ × ℚ) (rest : List (ℕ × ℕ × ℚ)),
    ∃ t, dropIntermediate (p :: rest) = p :: t := by
  intro p rest
  unfold dropIntermediate
  by_cases h : (p :: rest).length ≤ 2
  · rw [if_pos h]
    exact ⟨rest, rfl⟩
  · rw [if_neg h]
    exact ⟨dropWin p rest, rfl⟩

lemma dropIntermediate_getLast? (pts : List (ℕ × ℕ × ℚ)) (h : pts ≠ []) :
    (dropIntermediate pts).getLast? = pts.getLast? := by
  unfold dropIntermediate
  by_cases hl : pts.length ≤ 2
  · rw [if_pos hl]
  · rw [if_neg hl]
    cases pts with
    | nil => rfl
    | cons p rest =>
      have hrest : rest ≠ [] := by
        intro hc
        subst hc
        simp at hl
      have hne := dropWin_ne_nil p rest hrest
      cases hdw : dropWin p rest with
      | nil => exact absurd hdw hne
      | cons r tail =>
        show (p :: dropWin p rest).getLast? = (p :: rest).getLast?
        rw [hdw, List.getLast?_cons_cons, ← hdw,
          dropWin_getLast? p rest hrest]
        cases rest with
        | nil => exact absurd rfl hrest
        | cons q qs => rw [List.getLast?_cons_cons]

lemma dropIntermediate_getD_mem (pts : List (ℕ × ℕ × ℚ)) (i : ℕ)
    (hi : i + 1 < pts.length)
    (hkeep : i = 0 ∨
      keepMid (pts.getD (i - 1) pt0) (pts.getD i pt0) (pts.getD (i + 1) pt0) =
        true) :
    pts.getD i pt0 ∈ dropIntermediate pts := by
  by_cases hlen : pts.length ≤ 2
  · unfold dropIntermediate
    rw [if_pos hlen]
    rw [List.getD_eq_getElem _ _ (by omega : i < pts.length)]
    exact List.getElem_mem _
  · cases pts with
    | nil => simp at hi
    | cons p rest =>
      obtain ⟨t, ht⟩ := dropIntermediate_head p rest
      have htw : dropIntermediate (p :: rest) = p :: dropWin p rest := by
        unfold dropIntermediate
        rw [if_neg hlen]
      cases i with
      | zero =>
        rw [List.getD_cons_zero, htw]
        exact List.mem_cons_self _ _
      | succ j =>
        rcases hkeep with h0 | hk
        · exact absurd h0 (by simp)
        · rw [List.getD_cons_succ, htw]
          apply List.mem_cons_of_mem
          apply dropWin_getD_mem rest p j
          · simp only [List.length_cons] at hi
            omega
          · have e1 : (p :: rest).getD (j + 1 - 1) pt0 = (p :: rest).getD j pt0 := by
              congr 1
            rw [e1] at hk
            rw [List.getD_cons_succ, List.getD_cons_succ] at hk
            exact hk

lemma getLast?_mem' {α : Type} (l : List α) (h : l ≠ []) :
    ∀ x, l.getLast? = some x → x ∈ l := by
  intro x hx
  rw [List.getLast?_eq_getLast l h] at hx
  simp only [Option.some.injEq] at hx
  rw [← hx]
  exact List.getLast_mem h

lemma dropIntermediate_getLast_mem (pts : List (ℕ × ℕ × ℚ)) (h : pts ≠ []) :
    pts.getLast h ∈ dropIntermediate pts := by
  have hne := dropIntermediate_ne_nil pts h
  have heq := dropIntermediate_getLast? pts h
  rw [List.getLast?_eq_getLast pts h] at heq
  exact getLast?_mem' _ hne _ heq

lemma trapz_telescope : ∀ (u : ℚ × ℚ) (rest : List (ℚ × ℚ)),
    List.Chain' (fun p q => p.1 = q.1 ∨ (p.2 = 1 ∧ q.2 = 1)) (u :: rest) →
    trapzPts (u :: rest) = ((u :: rest).getLast (by simp)).1 - u.1
  | u, [], _ => by simp [trapzPts]
  | u, q :: rest', hchain => by
    rw [List.chain'_cons] at hchain
    obtain ⟨hR, hchain'⟩ := hchain
    have ih := trapz_telescope q rest' hchain'
    have hstep : (q.1 - u.1) * (u.2 + q.2) / 2 = q.1 - u.1 := by
      rcases hR with h | ⟨h1, h2⟩
      · rw [h]; ring
      · rw [h1, h2]; ring
    calc trapzPts (u :: q :: rest') =
          (q.1 - u.1) * (u.2 + q.2) / 2 + trapzPts (q :: rest') := rfl
      _ = (q.1 - u.1) + (((q :: rest').getLast (by simp)).1 - q.1) := by
          rw [hstep, ih]
      _ = ((u :: q :: rest').getLast (by simp)).1 - u.1 := by
          rw [List.getLast_cons_cons]
          ring

lemma eerGo_zero : ∀ (l₁ : List (ℚ × ℚ)) (y : ℚ) (l₂ : List (ℚ × ℚ))
    (p : ℚ × ℚ), p.1 = 0 → p.2 = 1 → (∀ q ∈ l₁, q.1 = 0) →
    eerGo 0 y (l₁ ++ p :: l₂) = 0
  | [], y, l₂, p, hp1, hp2, _ => by
    obtain ⟨a, b⟩ := p
    simp only at hp1 hp2
    subst hp1
    subst hp2
    rw [List.nil_append, eerGo, if_pos rfl, if_pos (by norm_num)]
  | q :: l₁, y, l₂, p, hp1, hp2, hq => by
    obtain ⟨a, b⟩ := q
    have ha : a = 0 := hq (a, b) (by simp)
    subst ha
    rw [List.cons_append, eerGo, if_pos rfl]
    by_cases hc : 1 - 0 - b ≤ 0
    · rw [if_pos hc]
    · rw [if_neg hc]
      exact eerGo_zero l₁ b l₂ p hp1 hp2 (fun r hr => hq r (by simp [hr]))

/-- Shape of the final curve for a perfect separator, stated over the kept
point list `K`: the trapezoid area is 1 and the crossing scan returns 0. -/
lemma sep_shape (K : List (ℕ × ℕ × ℚ)) (P N : ℕ) (hP : 0 < P) (hN : 0 < N)
    (hne : K ≠ [])
    (hmono : K.Pairwise (fun a b => a.1 ≤ b.1 ∧ a.2.1 ≤ b.2.1))
    (hpt : ∀ p ∈ K, p.2.1 ≤ P ∧ (0 < p.1 → p.2.1 = P))
    (hzp : ∃ th, (0, P, th) ∈ K)
    (hlast1 : (K.getLast hne).1 = N) (hlast2 : (K.getLast hne).2.1 = P)
    (hhead : (K.head hne).1 = 0) :
    trapzPts (((0 : ℚ) :: K.map fun p => (p.1 : ℚ) / (N : ℚ)).zip
      ((0 : ℚ) :: K.map fun p => (p.2.1 : ℚ) / (P : ℚ))) = 1 ∧
    eerStart (((0 : ℚ) :: K.map fun p => (p.1 : ℚ) / (N : ℚ)).zip
      ((0 : ℚ) :: K.map fun p => (p.2.1 : ℚ) / (P : ℚ))) = 0 := by
  have hPne : ((P : ℚ)) ≠ 0 := by
    exact_mod_cast Nat.pos_iff_ne_zero.1 hP
  have hNne : ((N : ℚ)) ≠ 0 := by
    exact_mod_cast Nat.pos_iff_ne_zero.1 hN
  set g : ℕ × ℕ × ℚ → ℚ × ℚ :=
    fun p => ((p.1 : ℚ) / (N : ℚ), (p.2.1 : ℚ) / (P : ℚ)) with hg
  have hzip : ((0 : ℚ) :: K.map fun p => (p.1 : ℚ) / (N : ℚ)).zip
      ((0 : ℚ) :: K.map fun p => (p.2.1 : ℚ) / (P : ℚ)) =
      ((0 : ℚ), (0 : ℚ)) :: K.map g := by
    rw [List.zip_cons_cons, List.zip_map']
  have hKmapne : K.map g ≠ [] := by
    intro hc
    exact hne (List.map_eq_nil_iff.1 hc)
  have hK0 : ∀ h : 0 < K.length, (getElem (K) (0) h).1 = 0 := by
    intro h
    have hh : K.head hne = getElem (K) (0) h := by
      rw [List.head_eq_getElem]
    rw [← hh]
    exact hhead
  -- the (0, P) point at its index
  obtain ⟨th, hzmem⟩ := hzp
  obtain ⟨j, hj, hKj⟩ := List.mem_iff_getElem.1 hzmem
  -- adjacency invariant for the trapezoid telescope
  have hchain : List.Chain' (fun p q => p.1 = q.1 ∨ (p.2 = 1 ∧ q.2 = 1))
      (((0 : ℚ), (0 : ℚ)) :: K.map g) := by
    rw [List.chain'_iff_get]
    intro i hi
    simp only [List.length_cons, List.length_map] at hi
    have hiK : i < K.length := by omega
    cases i with
    | zero =>
      left
      have h1 : (((0 : ℚ), (0 : ℚ)) :: K.map g).get ⟨0, by simp⟩ =
          ((0 : ℚ), (0 : ℚ)) := rfl
      have h2 : (((0 : ℚ), (0 : ℚ)) :: K.map g).get
          ⟨1, by simp [List.length_map]; omega⟩ = g (getElem (K) (0) hiK) := by
        simp [List.get_eq_getElem, List.getElem_map]
      rw [h1, h2, hg]
      simp only
      rw [hK0 hiK]
      norm_num
    | succ m =>
      have hm1 : m < K.length := by omega
      have hm2 : m + 1 < K.length := by omega
      have e1 : (((0 : ℚ), (0 : ℚ)) :: K.map g).get
          ⟨m + 1, by simp [List.length_map]; omega⟩ = g (getElem (K) (m) hm1) := by
        simp [List.get_eq_getElem, List.getElem_map]
      have e2 : (((0 : ℚ), (0 : ℚ)) :: K.map g).get
          ⟨m + 1 + 1, by simp [List.length_map]; omega⟩ =
          g (getElem (K) (m + 1) hm2) := by
        simp [List.get_eq_getElem, List.getElem_map]
      rw [e1, e2]
      by_cases he : (getElem (K) (m) hm1).1 = (getElem (K) (m + 1) hm2).1
      · left
        rw [hg]
        simp only
        rw [he]
      · right
        have hle := pairwise_getElem hmono m (m + 1) hm1 hm2 (by omega)
        have hlt : (getElem (K) (m) hm1).1 < (getElem (K) (m + 1) hm2).1 :=
          lt_of_le_of_ne hle.1 he
        have hq2 : (getElem (K) (m + 1) hm2).2.1 = P :=
          (hpt _ (List.getElem_mem hm2)).2 (by omega)
        have hp2 : (getElem (K) (m) hm1).2.1 = P := by
          rcases Nat.eq_zero_or_pos (getElem (K) (m) hm1).1 with h0 | hpos
          · rcases lt_trichotomy j m with hjm | hjm | hjm
            · have hrel := pairwise_getElem hmono j m hj hm1 hjm
              have h1 : (getElem (K) (j) hj).2.1 = P := by rw [hKj]
              have h2 := (hpt _ (List.getElem_mem hm1)).1
              omega
            · subst hjm
              rw [hKj]
            · rcases Nat.eq_or_lt_of_le hjm with hjeq | hjlt
              · exfalso
                have h00 : getElem (K) (m + 1) hm2 = (0, P, th) := by
                  subst hjeq
                  exact hKj
                rw [h00] at hlt
                simp at hlt
              · exfalso
                have hrel := pairwise_getElem hmono (m + 1) j hm2 hj hjlt
                have hj1 : (getElem (K) (j) hj).1 = 0 := by rw [hKj]
                omega
          · exact (hpt _ (List.getElem_mem hm1)).2 hpos
        refine ⟨?_, ?_⟩
        · rw [hg]
          simp only
          rw [hp2, div_self hPne]
        · rw [hg]
          simp only
          rw [hq2, div_self hPne]
  have hlastL : ((((0 : ℚ), (0 : ℚ)) :: K.map g).getLast (by simp)).1 = 1 := by
    rw [List.getLast_cons hKmapne, List.getLast_map _ _ hKmapne]
    have hl1 : (K.getLast (by simpa using hKmapne)).1 = N := hlast1
    show ((K.getLast (by simpa using hKmapne)).1 : ℚ) / (N : ℚ) = 1
    rw [hl1, div_self hNne]
  constructor
  · rw [hzip]
    rw [trapz_telescope _ _ hchain]
    rw [hlastL]
    norm_num
  · rw [hzip]
    show (if (1 : ℚ) - 0 - 0 ≤ 0 then (0 : ℚ) else eerGo 0 0 (K.map g)) = 0
    rw [if_neg (by norm_num)]
    -- decompose the mapped list around the (0, P) point
    have hdec : K = K.take j ++ (0, P, th) :: K.drop (j + 1) := by
      rw [← hKj]
      rw [← List.drop_eq_getElem_cons hj]
      rw [List.take_append_drop]
    have hmap : K.map g =
        (K.take j).map g ++ g (0, P, th) :: (K.drop (j + 1)).map g := by
      conv_lhs => rw [hdec]
      rw [List.map_append, List.map_cons]
    rw [hmap]
    apply eerGo_zero
    · rw [hg]
      simp
    · rw [hg]
      simp only
      rw [div_self hPne]
    · intro q hq
      simp only [List.mem_map] at hq
      obtain ⟨p', hp', hgp⟩ := hq
      obtain ⟨m, hm, hpm⟩ := List.mem_iff_getElem.1 hp'
      have hmlen : m < K.length := by
        rw [List.length_take] at hm
        omega
      have hmj : m < j := by
        rw [List.length_take] at hm
        omega
      rw [List.getElem_take] at hpm
      have hrel := pairwise_getElem hmono m j hmlen hj hmj
      have hj1 : (getElem (K) (j) hj).1 = 0 := by rw [hKj]
      have hp1 : p'.1 = 0 := by
        rw [← hpm]
        omega
      rw [← hgp, hg]
      simp only
      rw [hp1]
      norm_num

lemma dropIntermediate_head? (pts : List (ℕ × ℕ × ℚ)) (h : pts ≠ []) :
    (dropIntermediate pts).head? = pts.head? := by
  cases pts with
  | nil => exact absurd rfl h
  | cons p rest =>
    obtain ⟨t, htK⟩ := dropIntermediate_head p rest
    rw [htK, List.head?_cons, List.head?_cons]

/-- For a perfectly separated input (every positive scores strictly higher
than every negative, both classes present), the ROC evaluation returns
AUC = 1 and EER = 0. -/
lemma separator_roc (labels : List Bool) (scores : List ℚ)
    (hlen : labels.length = scores.length)
    (ht : true ∈ labels) (hf : false ∈ labels)
    (hsep : ∀ p ∈ labels.zip scores, ∀ q ∈ labels.zip scores,
      p.1 = true → q.1 = false → q.2 < p.2) :
    rocAUC labels scores = 1 ∧ rocEER labels scores = 0 := by
  set l := sortedPairs labels scores with hldef
  have hperm : l.Perm (labels.zip scores) := List.perm_insertionSort _ _
  have hsort : l.Pairwise scoreDesc := List.sorted_insertionSort _ _
  have hff : NoPosAfterNeg l := by
    refine hsort.imp_of_mem ?_
    intro a b ha hb hr
    intro hfa
    cases hb1 : b.1
    · rfl
    · exfalso
      have hamem : a ∈ labels.zip scores := hperm.mem_iff.1 ha
      have hbmem : b ∈ labels.zip scores := hperm.mem_iff.1 hb
      have hba := hsep b hbmem a hamem hb1 hfa
      exact absurd hba (not_lt.2 hr)
  have hn : l.length = labels.length := by
    rw [hperm.length_eq, List.length_zip]
    omega
  obtain ⟨i, hi, hit⟩ := List.mem_iff_getElem.1 ht
  obtain ⟨i2, hi2, hif⟩ := List.mem_iff_getElem.1 hf
  have hzi : i < (labels.zip scores).length := by
    rw [List.length_zip]; omega
  have hzi2 : i2 < (labels.zip scores).length := by
    rw [List.length_zip]; omega
  have hposmem : getElem ((labels.zip scores)) (i) hzi ∈ l := by
    rw [hperm.mem_iff]
    exact List.getElem_mem hzi
  have hnegmem : getElem ((labels.zip scores)) (i2) hzi2 ∈ l := by
    rw [hperm.mem_iff]
    exact List.getElem_mem hzi2
  have hposval : (getElem ((labels.zip scores)) (i) hzi).1 = true := by
    rw [List.getElem_zip]
    exact hit
  have hnegval : (getElem ((labels.zip scores)) (i2) hzi2).1 = false := by
    rw [List.getElem_zip]
    exact hif
  have hzne : labels.zip scores ≠ [] :=
    List.ne_nil_of_mem (List.getElem_mem hzi)
  have hlne : l ≠ [] := by
    intro hc
    rw [hc] at hposmem
    exact absurd hposmem (by simp)
  have hP0 : 0 < posCount l := by
    unfold posCount
    rw [List.countP_pos_iff]
    exact ⟨_, hposmem, by rw [hposval]⟩
  have hPn : posCount l < l.length := by
    obtain ⟨j, hj, hjeq⟩ := List.mem_iff_getElem.1 hnegmem
    have hjf : (getElem (l) (j) hj).1 = false := by rw [hjeq]; exact hnegval
    have hnot : ¬ j < posCount l := by
      intro hc
      have h2 := (get_true_iff l hff j hj).2 hc
      rw [hjf] at h2
      exact absurd h2 (by simp)
    omega
  obtain ⟨Q, hQ⟩ : ∃ Q, posCount l = Q + 1 := ⟨posCount l - 1, by omega⟩
  have hQn : Q + 1 < l.length := by omega
  have hQlt : Q < l.length := by omega
  have hlQ : (getElem (l) (Q) hQlt).1 = true := (get_true_iff l hff Q hQlt).2 (by omega)
  have hlQ1 : (getElem (l) (Q + 1) hQn).1 = false := by
    cases hb : (getElem (l) (Q + 1) hQn).1
    · rfl
    · have h2 := (get_true_iff l hff (Q + 1) hQn).1 hb
      omega
  have hscore : (getElem (l) (Q + 1) hQn).2 < (getElem (l) (Q) hQlt).2 :=
    hsep (getElem (l) (Q) hQlt) (hperm.mem_iff.1 (List.getElem_mem hQlt))
      (getElem (l) (Q + 1) hQn) (hperm.mem_iff.1 (List.getElem_mem hQn)) hlQ hlQ1
  have hQb : Q ∈ boundaryIdxs l :=
    mem_boundaryIdxs_of_ne l Q hQn (ne_of_gt hscore)
  -- value lemmas
  have hfps_true : ∀ k (hk : k < l.length), (getElem (l) (k) hk).1 = true →
      fpsAt l k = 0 ∧ tpsAt l k = k + 1 := by
    intro k hk hkt
    have h1 := tpsAt_of_true l hff k hk hkt
    exact ⟨by unfold fpsAt; omega, h1⟩
  have hfps_false : ∀ k (hk : k < l.length), (getElem (l) (k) hk).1 = false →
      fpsAt l k = (k + 1) - posCount l ∧ tpsAt l k = posCount l := by
    intro k hk hkf
    have h1 := tpsAt_of_false l hff k hk hkf
    exact ⟨by unfold fpsAt; omega, h1⟩
  -- the point lists
  set pts := clfPoints labels scores with hptsdef
  have hptseq : pts = (boundaryIdxs l).map (pointFn l) := by
    rw [hptsdef, clfPoints_eq]
  have hptsne : pts ≠ [] := clfPoints_ne_nil labels scores hzne
  set K := dropIntermediate pts with hKdef
  have hKne : K ≠ [] := dropIntermediate_ne_nil pts hptsne
  have hKsub : List.Sublist K pts := dropIntermediate_sublist pts
  have hBne : boundaryIdxs l ≠ [] := boundaryIdxs_ne_nil l hlne
  have hBpair := boundaryIdxs_pairwise l
  -- pointwise facts on K
  have hptprop : ∀ p ∈ K, p.2.1 ≤ posCount l ∧
      (0 < p.1 → p.2.1 = posCount l) := by
    intro p hp
    have hp' : p ∈ pts := hKsub.subset hp
    rw [hptseq] at hp'
    obtain ⟨k, hkB, hkp⟩ := List.mem_map.1 hp'
    have hkn : k < l.length := ((mem_boundaryIdxs_iff l k).1 hkB).1
    subst hkp
    refine ⟨tpsAt_le_posCount l k, ?_⟩
    intro hpos
    cases hb : (getElem (l) (k) hkn).1
    · exact (hfps_false k hkn hb).2
    · exfalso
      have h0 := (hfps_true k hkn hb).1
      have : (pointFn l k).1 = fpsAt l k := rfl
      rw [this, h0] at hpos
      exact absurd hpos (by simp)
  have hmonoPts : pts.Pairwise (fun a b => a.1 ≤ b.1 ∧ a.2.1 ≤ b.2.1) := by
    rw [hptseq, List.pairwise_map]
    refine hBpair.imp ?_
    intro a b hab
    exact ⟨fpsAt_mono l a b (le_of_lt hab), tpsAt_mono l a b (le_of_lt hab)⟩
  have hmonoK := hmonoPts.sublist hKsub
  -- the (0, P) point survives drop_intermediate
  obtain ⟨iB, hiB, hBi⟩ := List.mem_iff_getElem.1 hQb
  have hBlen : pts.length = (boundaryIdxs l).length := by
    rw [hptseq, List.length_map]
  have hBlast := boundaryIdxs_getLast l hlne
  have hiB1 : iB + 1 < (boundaryIdxs l).length := by
    rcases Nat.lt_or_ge (iB + 1) ((boundaryIdxs l).length) with h | h
    · exact h
    · exfalso
      have hlast_idx : iB = (boundaryIdxs l).length - 1 := by omega
      subst hlast_idx
      have hgl := List.getLast_eq_getElem (boundaryIdxs l) hBne
      rw [hBlast] at hgl
      rw [hBi] at hgl
      omega
  have hgetD : ∀ (m : ℕ) (hm : m < (boundaryIdxs l).length),
      pts.getD m pt0 = pointFn l (getElem ((boundaryIdxs l)) (m) hm) := by
    intro m hm
    rw [hptseq, List.getD_eq_getElem _ _ (by rw [List.length_map]; omega),
      List.getElem_map]
  have hkeep : iB = 0 ∨ keepMid (pts.getD (iB - 1) pt0) (pts.getD iB pt0)
      (pts.getD (iB + 1) pt0) = true := by
    rcases Nat.eq_zero_or_pos iB with h0 | h0
    · left; exact h0
    · right
      have hprev := hgetD (iB - 1) (by omega)
      have hmid := hgetD iB hiB
      have hnext := hgetD (iB + 1) hiB1
      have hkp_lt : getElem ((boundaryIdxs l)) (iB - 1) (by omega) < Q := by
        have h2 := pairwise_getElem hBpair (iB - 1) iB (by omega) hiB
          (by omega)
        rw [hBi] at h2
        exact h2
      have hkn_gt : Q < getElem ((boundaryIdxs l)) (iB + 1) hiB1 := by
        have h2 := pairwise_getElem hBpair iB (iB + 1) hiB hiB1 (by omega)
        rw [hBi] at h2
        exact h2
      have hkpn : getElem ((boundaryIdxs l)) (iB - 1) (by omega) < l.length :=
        ((mem_boundaryIdxs_iff l _).1 (List.getElem_mem (by omega))).1
      have hknn : getElem ((boundaryIdxs l)) (iB + 1) hiB1 < l.length :=
        ((mem_boundaryIdxs_iff l _).1 (List.getElem_mem hiB1)).1
      have hkp_true : (getElem (l) (getElem ((boundaryIdxs l)) (iB - 1) (by omega)) hkpn).1 = true :=
        (get_true_iff l hff _ hkpn).2 (by omega)
      have hkn_false :
          (getElem (l) (getElem ((boundaryIdxs l)) (iB + 1) hiB1) hknn).1 = false := by
        cases hb : (getElem (l) (getElem ((boundaryIdxs l)) (iB + 1) hiB1) hknn).1
        · rfl
        · have h2 := (get_true_iff l hff _ hknn).1 hb
          omega
      have hkp_fps : fpsAt l (getElem ((boundaryIdxs l)) (iB - 1) (by omega)) = 0 :=
        (hfps_true _ hkpn hkp_true).1
      have hmid_fps : fpsAt l Q = 0 := (hfps_true Q hQlt hlQ).1
      have hkn_fps :
          fpsAt l (getElem ((boundaryIdxs l)) (iB + 1) hiB1) =
            (getElem ((boundaryIdxs l)) (iB + 1) hiB1 + 1) - posCount l :=
        (hfps_false _ hknn hkn_false).1
      rw [hprev, hmid, hnext, hBi]
      unfold keepMid pointFn
      simp only
      rw [hkp_fps, hmid_fps, hkn_fps]
      have hc : (0 + (getElem ((boundaryIdxs l)) (iB + 1) hiB1 + 1 - posCount l) ==
          2 * 0) = false := by
        rw [beq_eq_false_iff_ne]
        omega
      rw [hc]
      simp
  have hzmemK : (0, posCount l, (l.getD Q default).2) ∈ K := by
    have hmid := hgetD iB hiB
    have hval : pointFn l Q = (0, posCount l, (l.getD Q default).2) := by
      unfold pointFn
      rw [(hfps_true Q hQlt hlQ).1, (hfps_true Q hQlt hlQ).2, ← hQ]
    have hgoal := dropIntermediate_getD_mem pts iB (by omega) hkeep
    rw [hmid, hBi, hval] at hgoal
    exact hgoal
  -- last point
  have hn1 : l.length - 1 < l.length := by omega
  have hn1_false : (getElem (l) (l.length - 1) hn1).1 = false := by
    cases hb : (getElem (l) (l.length - 1) hn1).1
    · rfl
    · have h2 := (get_true_iff l hff _ hn1).1 hb
      omega
  have hmapBne : (boundaryIdxs l).map (pointFn l) ≠ [] := by
    intro hc
    exact hBne (List.map_eq_nil_iff.1 hc)
  have hptslast? : pts.getLast? = some (pointFn l (l.length - 1)) := by
    rw [hptseq, List.getLast?_eq_getLast _ hmapBne,
      List.getLast_map _ _ hmapBne]
    have hbl : (boundaryIdxs l).getLast (by simpa using hmapBne) =
        l.length - 1 := hBlast
    rw [hbl]
  have hKlast : K.getLast hKne = pointFn l (l.length - 1) := by
    have h1 := dropIntermediate_getLast? pts hptsne
    rw [List.getLast?_eq_getLast _ hKne, hptslast?] at h1
    exact Option.some.inj h1
  have hlast1 : (K.getLast hKne).1 = l.length - posCount l := by
    rw [hKlast]
    have h2 : (pointFn l (l.length - 1)).1 = fpsAt l (l.length - 1) := rfl
    rw [h2, (hfps_false _ hn1 hn1_false).1]
    omega
  have hlast2 : (K.getLast hKne).2.1 = posCount l := by
    rw [hKlast]
    have h2 : (pointFn l (l.length - 1)).2.1 = tpsAt l (l.length - 1) := rfl
    rw [h2, (hfps_false _ hn1 hn1_false).2]
  -- head
  have hBhead_le : (boundaryIdxs l).head hBne ≤ Q :=
    sorted_head_le _ hBpair hBne Q hQb
  have hBheadn : (boundaryIdxs l).head hBne < l.length :=
    ((mem_boundaryIdxs_iff l _).1 (List.head_mem hBne)).1
  have hheadK : (K.head hKne).1 = 0 := by
    have h1 := dropIntermediate_head? pts hptsne
    have h2 : pts.head? = some (pointFn l ((boundaryIdxs l).head hBne)) := by
      rw [hptseq, List.head?_map, List.head?_eq_head hBne]
      rfl
    rw [List.head?_eq_head hKne, h2] at h1
    have h3 := Option.some.inj h1
    rw [h3]
    have h4 : (pointFn l ((boundaryIdxs l).head hBne)).1 =
        fpsAt l ((boundaryIdxs l).head hBne) := rfl
    rw [h4]
    exact (hfps_true _ hBheadn
      ((get_true_iff l hff _ hBheadn).2 (by omega))).1
  have hN0 : 0 < l.length - posCount l := by omega
  -- explicit normalized curve
  have hNq : ((0 :: K.map fun p => p.1).getLastD 0) =
      l.length - posCount l := by
    have hKm : K.map (fun p => p.1) ≠ [] := by
      intro hc
      exact hKne (List.map_eq_nil_iff.1 hc)
    rw [List.getLastD_cons, List.getLastD_eq_getLast?,
      List.getLast?_eq_getLast _ hKm, Option.getD_some,
      List.getLast_map _ _ hKm]
    exact hlast1
  have hPq : ((0 :: K.map fun p => p.2.1).getLastD 0) = posCount l := by
    have hKm : K.map (fun p => p.2.1) ≠ [] := by
      intro hc
      exact hKne (List.map_eq_nil_iff.1 hc)
    rw [List.getLastD_cons, List.getLastD_eq_getLast?,
      List.getLast?_eq_getLast _ hKm, Option.getD_some,
      List.getLast_map _ _ hKm]
    exact hlast2
  have hfpr : (rocCurve labels scores).1 =
      (0 : ℚ) :: K.map fun p =>
        (p.1 : ℚ) / ((l.length - posCount l : ℕ) : ℚ) := by
    have h0 : (rocCurve labels scores).1 =
        (0 :: K.map fun p => p.1).map
          (fun f : ℕ => (f : ℚ) /
            (((0 :: K.map fun p => p.1).getLastD 0 : ℕ) : ℚ)) := rfl
    rw [h0]
    simp only [hNq]
    rw [List.map_cons, List.map_map]
    congr 1
    norm_num
  have htpr : (rocCurve labels scores).2.1 =
      (0 : ℚ) :: K.map fun p => (p.2.1 : ℚ) / ((posCount l : ℕ) : ℚ) := by
    have h0 : (rocCurve labels scores).2.1 =
        (0 :: K.map fun p => p.2.1).map
          (fun t : ℕ => (t : ℚ) /
            (((0 :: K.map fun p => p.2.1).getLastD 0 : ℕ) : ℚ)) := rfl
    rw [h0]
    simp only [hPq]
    rw [List.map_cons, List.map_map]
    congr 1
    norm_num
  have hshape := sep_shape K (posCount l) (l.length - posCount l) hP0 hN0
    hKne hmonoK hptprop ⟨(l.getD Q default).2, hzmemK⟩ hlast1 hlast2 hheadK
  constructor
  · have hA : rocAUC labels scores =
        trapzPts ((rocCurve labels scores).1.zip
          (rocCurve labels scores).2.1) := rfl
    rw [hA, hfpr, htpr]
    exact hshape.1
  · have hE : rocEER labels scores =
        eerStart ((rocCurve labels scores).1.zip
          (rocCurve labels scores).2.1) := rfl
    rw [hE, hfpr, htpr]
    exact hshape.2

/-- C7 counterexample: on the spec's own example (labels `[0,0,1,1]`, scores
`[0.1, 0.4, 0.35, 0.8]`) the curve crosses the anti-diagonal exactly at 1/2,
so the EER is 1/2 and does not lie strictly between 0 and 0.5; moreover on a
single-class input the vacuous perfect-separator condition holds but the AUC
is not 1 (the curve is degenerate), so the universally quantified claim also
fails there. -/
theorem C7_counterexample :
    rocEER [false, false, true, true] [1/10, 2/5, 7/20, 4/5] = 1/2 ∧
    ¬ rocEER [false, false, true, true] [1/10, 2/5, 7/20, 4/5] < 1/2 ∧
    (∀ p ∈ ([true] : List Bool).zip [(1 : ℚ)], ∀ q ∈ ([true] : List Bool).zip [(1 : ℚ)],
      p.1 = true → q.1 = false → q.2 < p.2) ∧
    rocAUC [true] [(1 : ℚ)] ≠ 1 := by
  refine ⟨by decide, by decide, by decide, by decide⟩

/-- C7, amended: for every labels/scores input containing both classes, with
equal lengths, in which all positive samples score strictly higher than all
negative samples, the ROC evaluation yields AUC = 1 and EER = 0; and for the
specific input labels = [0,0,1,1], scores = [0.1, 0.4, 0.35, 0.8], the AUC
equals the closed-form trapezoidal value 3/4 and the EER lies in the
half-open interval (0, 1/2] (it equals exactly 1/2, the anti-diagonal
crossing of this curve). -/
theorem C7_amended_separator_auc_eer (labels : List Bool) (scores : List ℚ)
    (hlen : labels.length = scores.length)
    (ht : true ∈ labels) (hf : false ∈ labels)
    (hsep : ∀ p ∈ labels.zip scores, ∀ q ∈ labels.zip scores,
      p.1 = true → q.1 = false → q.2 < p.2) :
    (rocAUC labels scores = 1 ∧ rocEER labels scores = 0) ∧
    (rocAUC [false, false, true, true] [1/10, 2/5, 7/20, 4/5] = 3/4 ∧
      0 < rocEER [false, false, true, true] [1/10, 2/5, 7/20, 4/5] ∧
      rocEER [false, false, true, true] [1/10, 2/5, 7/20, 4/5] ≤ 1/2) :=
  ⟨separator_roc labels scores hlen ht hf hsep,
    by decide, by decide, by decide⟩

theorem C7_witness :
    (([false, true] : List Bool).length = ([(0 : ℚ), 1] : List ℚ).length ∧
      true ∈ [false, true] ∧ false ∈ [false, true] ∧
      (∀ p ∈ ([false, true] : List Bool).zip [(0 : ℚ), 1],
        ∀ q ∈ ([false, true] : List Bool).zip [(0 : ℚ), 1],
        p.1 = true → q.1 = false → q.2 < p.2)) ∧
    ((rocAUC [false, true] [(0 : ℚ), 1] = 1 ∧
        rocEER [false, true] [(0 : ℚ), 1] = 0) ∧
      (rocAUC [false, false, true, true] [1/10, 2/5, 7/20, 4/5] = 3/4 ∧
        0 < rocEER [false, false, true, true] [1/10, 2/5, 7/20, 4/5] ∧
        rocEER [false, false, true, true] [1/10, 2/5, 7/20, 4/5] ≤ 1/2)) :=
  ⟨⟨by decide, by decide, by decide, by decide⟩,
    C7_amended_separator_auc_eer [false, true] [(0 : ℚ), 1] (by decide)
      (by decide) (by decide) (by decide)⟩

end SkipGanomaly
